import Mathlib

/-!
The C-API handle table (machine/capi/handles.cpp).

A shallow embedding of `rubinius::capi::Handles`: the chunked slot
allocator it drives, handle allocation by pointer and by stable index,
pointer validation, the pruning sweep `deallocate_handles` and the
clearing loop of the destructor.

Conventions of the embedding.

* An `Object*` is an `ObjectPtr`: `none` is the null pointer, `some k` the
  object with identity `k`.
* A `Handle*` is a `HandlePtr`: the position (chunk, offset) of a slot.  A
  position whose chunk number is not below the number of chunks is an
  address outside all owned chunks.
* A chunk is the list of its `cChunkSize` slots; `chunks_` is the list of
  chunks.  The loops `for i < chunks_.size()` and `for j < cChunkSize` are
  recursions over these lists.
* `cChunkSize` and `sizeof(Handle)` are constants of headers that are not
  part of the source at hand; they are parameters.
* The constructors of the allocator and of the diagnostics are in headers
  that are not part of the source at hand; what they leave is modelled from
  the spec (`Allocator.new`, `Diagnostics.new`).
* The collector's liveness query `obj->marked_p(mark)` is an external
  collaborator; it is the parameter `marked_p`, defined on every pointer.
* `young` is `true` when the `young` pointer argument is not null.
* Counters are natural numbers (no wrap-around is modelled).
-/

namespace rubinius
namespace capi

/-- An object pointer: `none` is the null pointer. -/
abbrev ObjectPtr := Option Nat

/-- A handle slot: in-use flag, weak/strong flag and the referenced object. -/
structure Handle where
  in_use : Bool
  weak : Bool
  object : ObjectPtr
deriving DecidableEq, Repr, Inhabited

/-- A handle pointer: the slot at `offset` within chunk number `chunk`. -/
structure HandlePtr where
  chunk : Nat
  offset : Nat
deriving DecidableEq, Repr, Inhabited

namespace Handle

/-- Modelled from the spec: capi/handle.hpp is missing.  The initial state
of every slot is FREE: not in use, no object reference. -/
def free : Handle := { in_use := false, weak := false, object := none }

/-- Modelled from the spec: capi/handle.hpp is missing.  Reads the in-use
flag of the slot. -/
def in_use_p (h : Handle) : Bool := h.in_use

/-- Modelled from the spec: capi/handle.hpp is missing.  Reads the
weak/strong flag of the slot. -/
def weak_p (h : Handle) : Bool := h.weak

/-- Modelled from the spec: capi/handle.hpp is missing.  A handle is
destroyed by marking it free and clearing its object reference. -/
def clear (h : Handle) : Handle := { h with in_use := false, object := none }

/-- Modelled from the spec: capi/handle.hpp is missing.  The table
initialises an allocated slot through this call alone: it sets the object
reference and marks the slot in-use and strong. -/
def set_object (_h : Handle) (obj : ObjectPtr) : Handle :=
  { in_use := true, weak := false, object := obj }

end Handle

/-- Apply `f` to the element at position `k` of a list, when there is one. -/
def modifyAt {α : Type} (f : α → α) : Nat → List α → List α
  | _, [] => []
  | 0, x :: xs => f x :: xs
  | k + 1, x :: xs => x :: modifyAt f k xs

/-- The allocator: chunk sequence, free list of stable indices (the head is
popped first) and the in-use counter. -/
structure Allocator where
  chunks_ : List (List Handle)
  free_list_ : List Nat
  in_use_ : Nat
deriving DecidableEq, Repr, Inhabited

namespace Allocator

/-- Modelled from the spec: memory/allocator.hpp is missing.  A stable
index is derived from chunk position and offset within the chunk; this is
the slot it denotes. -/
def from_index (cChunkSize : Nat) (index : Nat) : HandlePtr :=
  { chunk := index / cChunkSize, offset := index % cChunkSize }

/-- The slot a handle pointer points at, when the pointer lies inside an
owned chunk. -/
def slot? (a : Allocator) (p : HandlePtr) : Option Handle :=
  (a.chunks_.get? p.chunk).bind (fun c => c.get? p.offset)

/-- Write through a handle pointer: replace the slot at `p` by `f` of it. -/
def update (a : Allocator) (p : HandlePtr) (f : Handle → Handle) : Allocator :=
  { a with chunks_ := modifyAt (modifyAt f p.offset) p.chunk a.chunks_ }

/-- Modelled from the spec: memory/allocator.hpp is missing.  Pops a
free-list entry if the list is non-empty; otherwise appends a new chunk of
free slots, pushes all of its slots but one onto the free list (in rising
order, so the highest pushed index is on top) and hands out the remaining,
last slot, signalling `needs_gc = true`.  Increments the in-use counter.
Returns the stable index, the `needs_gc` flag and the new allocator. -/
def allocate_index (cChunkSize : Nat) (a : Allocator) : Nat × Bool × Allocator :=
  match a.free_list_ with
  | index :: rest =>
      (index, false, { a with free_list_ := rest, in_use_ := a.in_use_ + 1 })
  | [] =>
      let base := a.chunks_.length * cChunkSize
      (base + (cChunkSize - 1), true,
        { chunks_ := a.chunks_ ++ [List.replicate cChunkSize Handle.free]
          free_list_ := ((List.range (cChunkSize - 1)).map (fun j => base + j)).reverse
          in_use_ := a.in_use_ + 1 })

/-- Modelled from the spec: memory/allocator.hpp is missing.  Same as
`allocate_index`, returning the slot itself instead of its stable index. -/
def allocate (cChunkSize : Nat) (a : Allocator) : HandlePtr × Bool × Allocator :=
  let r := allocate_index cChunkSize a
  (from_index cChunkSize r.1, r.2.1, r.2.2)

/-- Modelled from the spec: memory/allocator.hpp is missing.  True iff the
candidate lies within an owned chunk at a slot offset and that slot is
currently marked in-use. -/
def validate (a : Allocator) (p : HandlePtr) : Bool :=
  match a.slot? p with
  | some h => h.in_use_p
  | none => false

/-- The pass of `rebuild_freelist` over the slots of chunk `i`, from offset
`j` on: a slot of a chunk whose occupancy flag is false goes onto the free
list, a slot of a chunk flagged true only if it is individually free; every
other slot is counted as in use.  Returns the stable indices found free, in
rising order, and the number of slots counted. -/
def rebuild_chunk (cChunkSize : Nat) (i : Nat) (occupied : Bool) :
    List Handle → Nat → List Nat × Nat
  | [], _ => ([], 0)
  | h :: hs, j =>
      let r := rebuild_chunk cChunkSize i occupied hs (j + 1)
      if !occupied || !h.in_use_p then ((i * cChunkSize + j) :: r.1, r.2)
      else (r.1, r.2 + 1)

/-- The pass of `rebuild_freelist` over the chunks from chunk number `i`
on. -/
def rebuild_chunks (cChunkSize : Nat) (chunk_marks : List Bool) :
    List (List Handle) → Nat → List Nat × Nat
  | [], _ => ([], 0)
  | c :: cs, i =>
      let r := rebuild_chunk cChunkSize i (chunk_marks.getD i false) c 0
      let rs := rebuild_chunks cChunkSize chunk_marks cs (i + 1)
      (r.1 ++ rs.1, r.2 + rs.2)

/-- Modelled from the spec: memory/allocator.hpp is missing.  A full pass
recomputing the free list from the current in-use flags of every slot:
chunks whose occupancy flag is false contribute all of their slots, chunks
flagged true only their individually-free slots.  Slots are pushed in
rising order.  The in-use count is recomputed as the number of slots left
off the free list.  No slot content is changed. -/
def rebuild_freelist (cChunkSize : Nat) (a : Allocator) (chunk_marks : List Bool) :
    Allocator :=
  let r := rebuild_chunks cChunkSize chunk_marks a.chunks_ 0
  { a with free_list_ := r.1.reverse, in_use_ := r.2 }

/-- Modelled from the spec: memory/allocator.hpp is missing, and with it
the constructor of the allocator.  In the scenario of spec 8 (chunk
capacity 4, five handles allocated) the table grows once, on the fifth
allocation, so the first four are served from slots the new allocator
already owns: a new allocator owns one chunk of free slots, all of them on
the free list, pushed in rising order like the slots of any other new
chunk, and counts no slot as in use. -/
def new (cChunkSize : Nat) : Allocator :=
  { chunks_ := [List.replicate cChunkSize Handle.free]
    free_list_ := (List.range cChunkSize).reverse
    in_use_ := 0 }

end Allocator

/-- The counters of diagnostics::Handles. -/
structure Diagnostics where
  objects_ : Nat
  bytes_ : Nat
  collections_ : Nat
deriving DecidableEq, Repr, Inhabited

/-- Modelled from the spec: diagnostics/memory.hpp is missing, and with it
the constructor of the diagnostics.  The counters count growth events and
the live handles of the last sweep, so on new diagnostics all of them read
zero. -/
def Diagnostics.new : Diagnostics :=
  { objects_ := 0, bytes_ := 0, collections_ := 0 }

/-- The part of the machine state the table talks to: the number of
`schedule_full_collection` requests received by the memory manager. -/
structure STATE where
  full_collection_requests : Nat
deriving DecidableEq, Repr, Inhabited

/-- The handle table. -/
structure Handles where
  allocator_ : Allocator
  diagnostic_ : Diagnostics
deriving DecidableEq, Repr, Inhabited

/-- What a call of `allocate_index` ends in: it returns an index, or the
process is aborted by `rubinius::bug`; either way with the machine state
and table reached at that point. -/
inductive IndexOutcome where
  | returned (handle_index : Nat) (state : STATE) (table : Handles)
  | aborted (state : STATE) (table : Handles)
deriving DecidableEq, Repr

/-- The largest unsigned 32-bit value. -/
def UINT32_MAX : Nat := 2 ^ 32 - 1

namespace Handles

/-- The constructor `Handles::Handles` (lines 16-19): a new allocator and
new diagnostics. -/
def new (cChunkSize : Nat) : Handles :=
  { allocator_ := Allocator.new cChunkSize
    diagnostic_ := Diagnostics.new }

/-- A sample table that owns no chunk: no chunks, an empty free list and
every counter at zero. -/
def no_chunk_table : Handles :=
  { allocator_ := { chunks_ := [], free_list_ := [], in_use_ := 0 }
    diagnostic_ := { objects_ := 0, bytes_ := 0, collections_ := 0 } }

/-- The clearing loop of `Handles::~Handles` (lines 22-31): every in-use
slot of every chunk is cleared. -/
def destroy_clear (t : Handles) : Handles :=
  let clear_chunk : List Handle → List Handle :=
    List.map (fun handle => if handle.in_use_p then handle.clear else handle)
  let chunks := t.allocator_.chunks_.map clear_chunk
  { t with allocator_ := { t.allocator_ with chunks_ := chunks } }

/-- The effect of `schedule_full_collection` on the machine state, as far
as the table is concerned: one more request. -/
def schedule_full_collection (state : STATE) : STATE :=
  { state with full_collection_requests := state.full_collection_requests + 1 }

/-- The statement `diagnostic()->collections_++`. -/
def bump_collections (t : Handles) : Handles :=
  { t with diagnostic_ :=
      { t.diagnostic_ with collections_ := t.diagnostic_.collections_ + 1 } }

/-- The call `Handles::allocate` (lines 41-54).  The handle's own
`validate()` is an assertion and the memory barrier has no effect on the
sequential state. -/
def allocate (cChunkSize : Nat) (state : STATE) (t : Handles) (obj : ObjectPtr) :
    HandlePtr × STATE × Handles :=
  let r := Allocator.allocate cChunkSize t.allocator_
  let handle := r.1
  let needs_gc := r.2.1
  let t1 : Handles :=
    { t with allocator_ := Allocator.update r.2.2 handle (fun h => h.set_object obj) }
  if needs_gc then
    (handle, schedule_full_collection state, bump_collections t1)
  else
    (handle, state, t1)

/-- The call `Handles::allocate_index` (lines 56-76). -/
def allocate_index (cChunkSize : Nat) (state : STATE) (t : Handles) (obj : ObjectPtr) :
    IndexOutcome :=
  let r := Allocator.allocate_index cChunkSize t.allocator_
  let handle_index := r.1
  let needs_gc := r.2.1
  let t0 : Handles := { t with allocator_ := r.2.2 }
  if handle_index > UINT32_MAX then
    IndexOutcome.aborted state t0
  else
    let handle := Allocator.from_index cChunkSize handle_index
    let t1 : Handles :=
      { t0 with allocator_ := Allocator.update t0.allocator_ handle (fun h => h.set_object obj) }
    if needs_gc then
      IndexOutcome.returned handle_index (schedule_full_collection state) (bump_collections t1)
    else
      IndexOutcome.returned handle_index state t1

/-- The call `Handles::validate` (lines 78-80). -/
def validate (t : Handles) (handle : HandlePtr) : Bool :=
  t.allocator_.validate handle

/-- The body of the inner loop of the sweep (lines 93-141) on one slot,
threading the occupancy flag of the current chunk and the `objects_`
counter. -/
def sweep_slot (marked_p : ObjectPtr → Nat → Bool) (mark : Nat) (young : Bool)
    (handle : Handle) (chunk_mark : Bool) (objects_ : Nat) : Handle × Bool × Nat :=
  let obj := handle.object
  if !handle.in_use_p then (handle, chunk_mark, objects_)
  else if !handle.weak_p then (handle, true, objects_ + 1)
  else if young then (handle, chunk_mark, objects_)
  else if !marked_p obj mark then (handle.clear, chunk_mark, objects_)
  else (handle, true, objects_ + 1)

/-- The inner loop of the sweep (lines 92-142) over the slots of one
chunk. -/
def sweep_chunk (marked_p : ObjectPtr → Nat → Bool) (mark : Nat) (young : Bool) :
    List Handle → Bool → Nat → List Handle × Bool × Nat
  | [], chunk_mark, objects_ => ([], chunk_mark, objects_)
  | handle :: rest, chunk_mark, objects_ =>
      let r := sweep_slot marked_p mark young handle chunk_mark objects_
      let rs := sweep_chunk marked_p mark young rest r.2.1 r.2.2
      (r.1 :: rs.1, rs.2.1, rs.2.2)

/-- The outer loop of the sweep (lines 89-143): returns the chunks, the
vector `chunk_marks` (every entry starts out false) and `objects_`. -/
def sweep_chunks (marked_p : ObjectPtr → Nat → Bool) (mark : Nat) (young : Bool) :
    List (List Handle) → Nat → List (List Handle) × List Bool × Nat
  | [], objects_ => ([], [], objects_)
  | chunk :: rest, objects_ =>
      let r := sweep_chunk marked_p mark young chunk false objects_
      let rs := sweep_chunks marked_p mark young rest r.2.2
      (r.1 :: rs.1, r.2.1 :: rs.2.1, rs.2.2)

/-- Reading a slot through a handle pointer; a pointer outside the owned
chunks (which the code never dereferences) reads as a free slot. -/
def deref (a : Allocator) (p : HandlePtr) : Handle :=
  (a.slot? p).getD Handle.free

/-- The cleanup loop over the cached list (lines 146-154): an entry whose
handle is in use is stepped over, any other entry is erased. -/
def cleanup_cached (a : Allocator) : List HandlePtr → List HandlePtr
  | [] => []
  | handle :: rest =>
      if (deref a handle).in_use_p then handle :: cleanup_cached a rest
      else cleanup_cached a rest

/-- The table as the per-slot pass of the sweep leaves it (lines 85-143):
the slots swept and `objects_` recounted from zero. -/
def sweep_pass (marked_p : ObjectPtr → Nat → Bool) (t : Handles) (mark : Nat)
    (young : Bool) : Handles :=
  let r := sweep_chunks marked_p mark young t.allocator_.chunks_ 0
  { allocator_ := { t.allocator_ with chunks_ := r.1 }
    diagnostic_ := { t.diagnostic_ with objects_ := r.2.2 } }

/-- The vector `chunk_marks` at the end of the per-slot pass. -/
def sweep_marks (marked_p : ObjectPtr → Nat → Bool) (t : Handles) (mark : Nat)
    (young : Bool) : List Bool :=
  (sweep_chunks marked_p mark young t.allocator_.chunks_ 0).2.1

/-- The call `Handles::deallocate_handles` (lines 82-159): the per-slot
pass, the cleanup of the cached list, the rebuild of the free list and the
recomputation of `bytes_`.  Returns the table and the cached list. -/
def deallocate_handles (cChunkSize sizeofHandle : Nat)
    (marked_p : ObjectPtr → Nat → Bool) (t : Handles) (cached : List HandlePtr)
    (mark : Nat) (young : Bool) : Handles × List HandlePtr :=
  let t1 := sweep_pass marked_p t mark young
  let chunk_marks := sweep_marks marked_p t mark young
  let cached1 := cleanup_cached t1.allocator_ cached
  let a2 := Allocator.rebuild_freelist cChunkSize t1.allocator_ chunk_marks
  ({ allocator_ := a2
     diagnostic_ := { t1.diagnostic_ with bytes_ := a2.in_use_ * sizeofHandle } },
   cached1)

/-- What the body of the inner loop leaves in a slot: an in-use weak handle
met in the mature context with an unmarked object is cleared, any other
slot is left as it is. -/
def swept (marked_p : ObjectPtr → Nat → Bool) (mark : Nat) (young : Bool)
    (h : Handle) : Handle :=
  if h.in_use && h.weak && !young && !marked_p h.object mark then h.clear else h

/-- Whether the body of the inner loop counts a slot, that is, sets the
occupancy flag of its chunk and increments `objects_`. -/
def counted (marked_p : ObjectPtr → Nat → Bool) (mark : Nat) (young : Bool)
    (h : Handle) : Bool :=
  h.in_use && (!h.weak || (!young && marked_p h.object mark))

/-- The number of in-use slots of a chunk sequence. -/
def in_use_count (chunks : List (List Handle)) : Nat :=
  (chunks.map (fun c => c.countP (fun h => h.in_use_p))).sum

/-- Whether a stable index is on the free list. -/
def on_free_list (cChunkSize : Nat) (t : Handles) (p : HandlePtr) : Bool :=
  t.allocator_.free_list_.any (fun index => Allocator.from_index cChunkSize index == p)

end Handles

/-! ## Sample inputs -/

/-- A liveness oracle for the samples: under mark token 1 exactly the
objects 1 and 4 are marked; under any other token nothing is. -/
def sample_marked_p : ObjectPtr → Nat → Bool :=
  fun obj mark => mark == 1 && (obj == some 1 || obj == some 4)

/-- A table of two chunks of two slots: a strong handle on object 1, a weak
handle on object 2, a free slot and a weak handle on object 4. -/
def sample_table : Handles :=
  { allocator_ :=
      { chunks_ := [[⟨true, false, some 1⟩, ⟨true, true, some 2⟩],
                    [Handle.free, ⟨true, true, some 4⟩]]
        free_list_ := [2]
        in_use_ := 3 }
    diagnostic_ := { objects_ := 3, bytes_ := 24, collections_ := 2 } }

/-- A table of one chunk of one slot, which holds a weak handle on the
object 7. -/
def lone_weak_table : Handles :=
  { allocator_ := { chunks_ := [[⟨true, true, some 7⟩]], free_list_ := [], in_use_ := 1 }
    diagnostic_ := { objects_ := 1, bytes_ := 8, collections_ := 1 } }

/-- The allocator is well formed for the chunk size: the chunk size is
positive, every chunk has that many slots, and every entry of the free list
is the stable index of a slot of an owned chunk. -/
def Allocator.well_formed (cChunkSize : Nat) (a : Allocator) : Prop :=
  0 < cChunkSize ∧ (∀ c ∈ a.chunks_, c.length = cChunkSize) ∧
    ∀ index ∈ a.free_list_, index < a.chunks_.length * cChunkSize

/-- One allocation request: through `Handles::allocate` or through
`Handles::allocate_index`. -/
inductive AllocCall where
  | by_pointer (obj : ObjectPtr)
  | by_index (obj : ObjectPtr)
deriving DecidableEq, Repr

/-- A sequence of allocation calls run one after the other; `none` when one
of them aborts. -/
def run_allocations (cChunkSize : Nat) : List AllocCall → STATE → Handles → Option (STATE × Handles)
  | [], state, t => some (state, t)
  | AllocCall.by_pointer obj :: rest, state, t =>
      let r := Handles.allocate cChunkSize state t obj
      run_allocations cChunkSize rest r.2.1 r.2.2
  | AllocCall.by_index obj :: rest, state, t =>
      match Handles.allocate_index cChunkSize state t obj with
      | IndexOutcome.returned _ state1 t1 => run_allocations cChunkSize rest state1 t1
      | IndexOutcome.aborted _ _ => none

/-- A sample sequence of five allocation calls. -/
def sample_calls : List AllocCall :=
  [AllocCall.by_pointer (some 1), AllocCall.by_index (some 2), AllocCall.by_pointer (some 3),
    AllocCall.by_index (some 4), AllocCall.by_pointer (some 5)]

/-- The table the sample calls leave when run on the table that owns no
chunk, with chunks of two slots. -/
def sample_calls_table : Handles :=
  { allocator_ :=
      { chunks_ := [[⟨true, false, some 2⟩, ⟨true, false, some 1⟩],
                    [⟨true, false, some 4⟩, ⟨true, false, some 3⟩],
                    [Handle.free, ⟨true, false, some 5⟩]]
        free_list_ := [4]
        in_use_ := 5 }
    diagnostic_ := { objects_ := 0, bytes_ := 0, collections_ := 3 } }

/-! ## Runs of calls -/

/-- A run of `Handles::allocate` calls, one per object; returns the
handles in call order. -/
def allocate_many (cChunkSize : Nat) :
    List ObjectPtr → STATE → Handles → List HandlePtr × STATE × Handles
  | [], state, t => ([], state, t)
  | obj :: rest, state, t =>
      let r := Handles.allocate cChunkSize state t obj
      let rs := allocate_many cChunkSize rest r.2.1 r.2.2
      (r.1 :: rs.1, rs.2.1, rs.2.2)

/-- A run of `Handles::allocate_index` calls, one per object; returns the
stable indices in call order, or `none` when one of the calls aborts. -/
def allocate_index_many (cChunkSize : Nat) :
    List ObjectPtr → STATE → Handles → Option (List Nat × STATE × Handles)
  | [], state, t => some ([], state, t)
  | obj :: rest, state, t =>
      match Handles.allocate_index cChunkSize state t obj with
      | IndexOutcome.aborted _ _ => none
      | IndexOutcome.returned index state1 t1 =>
          match allocate_index_many cChunkSize rest state1 t1 with
          | none => none
          | some rs => some (index :: rs.1, rs.2.1, rs.2.2)

/-- The table three `allocate_index` calls for the objects 1, 2 and 3 leave
when run on the table that owns no chunk, with chunks of two slots. -/
def sample_index_run_table : Handles :=
  { allocator_ :=
      { chunks_ := [[⟨true, false, some 2⟩, ⟨true, false, some 1⟩],
                    [Handle.free, ⟨true, false, some 3⟩]]
        free_list_ := [2]
        in_use_ := 3 }
    diagnostic_ := { objects_ := 0, bytes_ := 0, collections_ := 2 } }

/-- Modelled from the spec: the call that flags a handle weak lives in
capi/handle.hpp, which is missing.  The owner of an in-use handle turns it
into a weak handle; nothing else about the slot changes. -/
def Handles.flag_weak (t : Handles) (handle : HandlePtr) : Handles :=
  { t with allocator_ := t.allocator_.update handle (fun h => { h with weak := true }) }

/-- One call on the table, or one flagging of a handle as weak between
calls. -/
inductive TableCall where
  | allocate (obj : ObjectPtr)
  | allocate_index (obj : ObjectPtr)
  | flag_weak (handle : HandlePtr)
  | deallocate_handles (cached : List HandlePtr) (mark : Nat) (young : Bool)
deriving DecidableEq, Repr

/-- A sequence of calls run one after the other; `none` when an
`allocate_index` aborts. -/
def run_calls (cChunkSize sizeofHandle : Nat) (marked_p : ObjectPtr → Nat → Bool) :
    List TableCall → STATE → Handles → Option (STATE × Handles)
  | [], state, t => some (state, t)
  | TableCall.allocate obj :: rest, state, t =>
      let r := Handles.allocate cChunkSize state t obj
      run_calls cChunkSize sizeofHandle marked_p rest r.2.1 r.2.2
  | TableCall.allocate_index obj :: rest, state, t =>
      match Handles.allocate_index cChunkSize state t obj with
      | IndexOutcome.returned _ state1 t1 =>
          run_calls cChunkSize sizeofHandle marked_p rest state1 t1
      | IndexOutcome.aborted _ _ => none
  | TableCall.flag_weak handle :: rest, state, t =>
      run_calls cChunkSize sizeofHandle marked_p rest state (t.flag_weak handle)
  | TableCall.deallocate_handles cached mark young :: rest, state, t =>
      run_calls cChunkSize sizeofHandle marked_p rest state
        (Handles.deallocate_handles cChunkSize sizeofHandle marked_p t cached mark young).1

/-- Whether the slot with stable index `index` is on the free list or
marked in use, and not both. -/
def slot_occupancy_ok (cChunkSize : Nat) (a : Allocator) (index : Nat) : Bool :=
  a.free_list_.contains index != (Handles.deref a (Allocator.from_index cChunkSize index)).in_use_p

/-- Whether every slot of the table is on the free list or marked in use,
and not both. -/
def occupancy_ok (cChunkSize : Nat) (t : Handles) : Bool :=
  (List.range (t.allocator_.chunks_.length * cChunkSize)).all
    (slot_occupancy_ok cChunkSize t.allocator_)

/-- The calls that break the occupancy invariant: allocate a handle, flag
it weak, sweep in the young context. -/
def young_sweep_calls : List TableCall :=
  [TableCall.allocate (some 1), TableCall.flag_weak ⟨0, 1⟩,
    TableCall.deallocate_handles [] 0 true]

/-- The table the calls of `young_sweep_calls` leave when run on a new
table with chunks of two slots. -/
def young_sweep_table : Handles :=
  { allocator_ :=
      { chunks_ := [[Handle.free, ⟨true, true, some 1⟩]]
        free_list_ := [1, 0]
        in_use_ := 0 }
    diagnostic_ := { objects_ := 0, bytes_ := 0, collections_ := 0 } }

/-- The occupancy invariant of the allocator: a slot is on the free list if
and only if it is not marked in use. -/
def Allocator.occupancy (cChunkSize : Nat) (a : Allocator) : Prop :=
  ∀ (p : HandlePtr) (h : Handle), a.slot? p = some h →
    (p.chunk * cChunkSize + p.offset ∈ a.free_list_ ↔ h.in_use_p = false)

/-- Whether every sweep of a sequence of calls runs in the mature
context. -/
def mature_only : List TableCall → Bool
  | [] => true
  | TableCall.deallocate_handles _ _ young :: rest => !young && mature_only rest
  | _ :: rest => mature_only rest

/-! # Theorems -/

/-! ## The per-slot pass -/

namespace Handles

theorem sweep_slot_eq (marked_p : ObjectPtr → Nat → Bool) (mark : Nat) (young : Bool)
    (h : Handle) (cm : Bool) (o : Nat) :
    sweep_slot marked_p mark young h cm o =
      (swept marked_p mark young h, cm || counted marked_p mark young h,
        o + (if counted marked_p mark young h then 1 else 0)) := by
  unfold sweep_slot swept counted Handle.in_use_p Handle.weak_p
  cases hm : marked_p h.object mark <;> cases h.in_use <;> cases h.weak <;> cases young <;>
    simp [hm]

theorem sweep_chunk_eq (marked_p : ObjectPtr → Nat → Bool) (mark : Nat) (young : Bool)
    (c : List Handle) (cm : Bool) (o : Nat) :
    sweep_chunk marked_p mark young c cm o =
      (c.map (swept marked_p mark young), cm || c.any (counted marked_p mark young),
        o + c.countP (counted marked_p mark young)) := by
  induction c generalizing cm o with
  | nil => simp [sweep_chunk]
  | cons h rest ih =>
    simp only [sweep_chunk, sweep_slot_eq, ih, List.map_cons, List.any_cons, List.countP_cons]
    refine Prod.ext rfl (Prod.ext ?_ ?_)
    · simp [Bool.or_assoc]
    · simp only; cases counted marked_p mark young h <;> simp; omega

theorem sweep_chunks_eq (marked_p : ObjectPtr → Nat → Bool) (mark : Nat) (young : Bool)
    (cs : List (List Handle)) (o : Nat) :
    sweep_chunks marked_p mark young cs o =
      (cs.map (List.map (swept marked_p mark young)),
        cs.map (fun c => c.any (counted marked_p mark young)),
        o + (cs.map (fun c => c.countP (counted marked_p mark young))).sum) := by
  induction cs generalizing o with
  | nil => simp [sweep_chunks]
  | cons c rest ih =>
    simp only [sweep_chunks, sweep_chunk_eq, ih, List.map_cons, List.sum_cons]
    refine Prod.ext rfl (Prod.ext ?_ ?_)
    · simp
    · simp only; omega

end Handles

namespace Handles

theorem sweep_pass_chunks (marked_p : ObjectPtr → Nat → Bool) (t : Handles) (mark : Nat)
    (young : Bool) :
    (sweep_pass marked_p t mark young).allocator_.chunks_ =
      t.allocator_.chunks_.map (List.map (swept marked_p mark young)) := by
  simp [sweep_pass, sweep_chunks_eq]

theorem deallocate_chunks (cChunkSize sizeofHandle : Nat) (marked_p : ObjectPtr → Nat → Bool)
    (t : Handles) (cached : List HandlePtr) (mark : Nat) (young : Bool) :
    (deallocate_handles cChunkSize sizeofHandle marked_p t cached mark young).1.allocator_.chunks_ =
      t.allocator_.chunks_.map (List.map (swept marked_p mark young)) := by
  simp [deallocate_handles, Allocator.rebuild_freelist, sweep_pass_chunks]

theorem slot?_of_chunks (a b : Allocator) (f : Handle → Handle)
    (h : b.chunks_ = a.chunks_.map (List.map f)) (p : HandlePtr) :
    b.slot? p = (a.slot? p).map f := by
  unfold Allocator.slot?
  rw [h]
  simp only [List.get?_eq_getElem?, List.getElem?_map]
  cases a.chunks_[p.chunk]? with
  | none => rfl
  | some c => simp

theorem deallocate_slot? (cChunkSize sizeofHandle : Nat) (marked_p : ObjectPtr → Nat → Bool)
    (t : Handles) (cached : List HandlePtr) (mark : Nat) (young : Bool) (p : HandlePtr) :
    (deallocate_handles cChunkSize sizeofHandle marked_p t cached mark young).1.allocator_.slot? p =
      (t.allocator_.slot? p).map (swept marked_p mark young) :=
  slot?_of_chunks _ _ _ (deallocate_chunks cChunkSize sizeofHandle marked_p t cached mark young) p

/-- C1. The pruning sweep never reclaims a strong handle: whatever the
table, the cached list, the mark token and the generation context, a slot
that holds an in-use strong handle before `deallocate_handles` holds the
very same handle after it (still in use, still strong, same object). -/
theorem deallocate_handles_keeps_strong (cChunkSize sizeofHandle : Nat)
    (marked_p : ObjectPtr → Nat → Bool) (t : Handles) (cached : List HandlePtr)
    (mark : Nat) (young : Bool) (p : HandlePtr) (h : Handle)
    (hslot : t.allocator_.slot? p = some h) (huse : h.in_use_p = true)
    (hstrong : h.weak_p = false) :
    (deallocate_handles cChunkSize sizeofHandle marked_p t cached mark young).1.allocator_.slot? p
        = some h ∧
      validate (deallocate_handles cChunkSize sizeofHandle marked_p t cached mark young).1 p
        = true := by
  have hs := deallocate_slot? cChunkSize sizeofHandle marked_p t cached mark young p
  have hk : swept marked_p mark young h = h := by
    unfold Handle.weak_p at hstrong
    simp [swept, hstrong]
  rw [hslot, Option.map_some', hk] at hs
  exact ⟨hs, by simp [validate, Allocator.validate, hs, huse]⟩

end Handles

namespace Handles

/-- Witness of C1 on the sample table: the strong handle of slot (0,0)
survives a mature sweep under mark token 1. -/
theorem deallocate_handles_keeps_strong_witness :
    sample_table.allocator_.slot? ⟨0, 0⟩ = some ⟨true, false, some 1⟩ ∧
    ((deallocate_handles 2 8 sample_marked_p sample_table [] 1 false).1.allocator_.slot? ⟨0, 0⟩
        = some ⟨true, false, some 1⟩ ∧
      validate (deallocate_handles 2 8 sample_marked_p sample_table [] 1 false).1 ⟨0, 0⟩
        = true) :=
  ⟨by decide,
   deallocate_handles_keeps_strong 2 8 sample_marked_p sample_table [] 1 false ⟨0, 0⟩
     ⟨true, false, some 1⟩ (by decide) (by decide) (by decide)⟩

theorem swept_weak_mature (marked_p : ObjectPtr → Nat → Bool) (mark : Nat) (h : Handle)
    (huse : h.in_use_p = true) (hweak : h.weak_p = true) :
    swept marked_p mark false h = if marked_p h.object mark then h else h.clear := by
  unfold Handle.in_use_p at huse
  unfold Handle.weak_p at hweak
  cases hm : marked_p h.object mark <;> simp [swept, huse, hweak, hm]

theorem swept_young (marked_p : ObjectPtr → Nat → Bool) (mark : Nat) (h : Handle) :
    swept marked_p mark true h = h := by
  simp [swept]

/-- C2. In the mature context (`young` null) an in-use weak handle is in
use after `deallocate_handles` if and only if its object is marked under
the mark token; a marked one is left as it was, an unmarked one has been
cleared: its slot is free and holds no object reference. -/
theorem deallocate_handles_weak_mature (cChunkSize sizeofHandle : Nat)
    (marked_p : ObjectPtr → Nat → Bool) (t : Handles) (cached : List HandlePtr)
    (mark : Nat) (p : HandlePtr) (h : Handle)
    (hslot : t.allocator_.slot? p = some h) (huse : h.in_use_p = true)
    (hweak : h.weak_p = true) :
    (validate (deallocate_handles cChunkSize sizeofHandle marked_p t cached mark false).1 p = true
        ↔ marked_p h.object mark = true) ∧
      (marked_p h.object mark = true →
        (deallocate_handles cChunkSize sizeofHandle marked_p t cached mark false).1.allocator_.slot? p
          = some h) ∧
      (marked_p h.object mark = false →
        ∃ h', (deallocate_handles cChunkSize sizeofHandle marked_p t cached mark
                false).1.allocator_.slot? p = some h' ∧
          h'.in_use_p = false ∧ h'.object = none ∧ h' = h.clear) := by
  have hs := deallocate_slot? cChunkSize sizeofHandle marked_p t cached mark false p
  rw [hslot, Option.map_some', swept_weak_mature marked_p mark h huse hweak] at hs
  cases hm : marked_p h.object mark
  · simp only [hm, Bool.false_eq_true, if_false] at hs
    refine ⟨?_, ?_, ?_⟩
    · simp [validate, Allocator.validate, hs, Handle.clear, Handle.in_use_p]
    · intro hc; cases hc
    · intro _
      exact ⟨h.clear, hs, rfl, rfl, rfl⟩
  · simp only [hm, if_true] at hs
    refine ⟨?_, ?_, ?_⟩
    · simp [validate, Allocator.validate, hs, huse]
    · intro _; exact hs
    · intro hc; cases hc

/-- Witness of C2 on the sample table: under mark token 1 the weak handle
on the unmarked object 2, slot (0,1), is cleared by a mature sweep. -/
theorem deallocate_handles_weak_mature_witness :
    sample_table.allocator_.slot? ⟨0, 1⟩ = some ⟨true, true, some 2⟩ ∧
    sample_marked_p (some 2) 1 = false ∧
    validate (deallocate_handles 2 8 sample_marked_p sample_table [] 1 false).1 ⟨0, 1⟩ = false :=
  ⟨by decide, by decide, by
    have h := (deallocate_handles_weak_mature 2 8 sample_marked_p sample_table [] 1 ⟨0, 1⟩
      ⟨true, true, some 2⟩ (by decide) (by decide) (by decide)).1
    cases hv : validate (deallocate_handles 2 8 sample_marked_p sample_table [] 1 false).1 ⟨0, 1⟩
    · rfl
    · exact absurd (h.mp hv) (by decide)⟩

/-- Counterexample to C3 as stated: in the young context the weak handle of
the one-slot table, whose object 7 is unmarked under mark token 0, is still
in use after the sweep. -/
theorem deallocate_handles_weak_any_context_counterexample :
    lone_weak_table.allocator_.slot? ⟨0, 0⟩ = some ⟨true, true, some 7⟩ ∧
    sample_marked_p (some 7) 0 = false ∧
    validate (deallocate_handles 1 8 sample_marked_p lone_weak_table [] 0 true).1 ⟨0, 0⟩ = true ∧
    (deallocate_handles 1 8 sample_marked_p lone_weak_table [] 0 true).1.allocator_.slot? ⟨0, 0⟩
      = some ⟨true, true, some 7⟩ := by
  decide

/-- C3, amended. For an in-use weak handle: in the mature context (`young`
null) it is free after the sweep when its object is unmarked under the
mark token; in the young context (`young` not null) it remains in use
unchanged, marked or not; and in either context it remains in use
unchanged when its object is marked. -/
theorem deallocate_handles_weak_by_context (cChunkSize sizeofHandle : Nat)
    (marked_p : ObjectPtr → Nat → Bool) (t : Handles) (cached : List HandlePtr)
    (mark : Nat) (young : Bool) (p : HandlePtr) (h : Handle)
    (hslot : t.allocator_.slot? p = some h) (huse : h.in_use_p = true)
    (hweak : h.weak_p = true) :
    (young = false → marked_p h.object mark = false →
        (deallocate_handles cChunkSize sizeofHandle marked_p t cached mark young).1.allocator_.slot? p
            = some h.clear ∧
          validate (deallocate_handles cChunkSize sizeofHandle marked_p t cached mark young).1 p
            = false) ∧
      (young = true ∨ marked_p h.object mark = true →
        (deallocate_handles cChunkSize sizeofHandle marked_p t cached mark young).1.allocator_.slot? p
            = some h ∧
          validate (deallocate_handles cChunkSize sizeofHandle marked_p t cached mark young).1 p
            = true) := by
  have hs := deallocate_slot? cChunkSize sizeofHandle marked_p t cached mark young p
  rw [hslot, Option.map_some'] at hs
  constructor
  · intro hy hm
    subst hy
    rw [swept_weak_mature marked_p mark h huse hweak, hm] at hs
    simp only [Bool.false_eq_true, if_false] at hs
    exact ⟨hs, by simp [validate, Allocator.validate, hs, Handle.clear, Handle.in_use_p]⟩
  · intro hc
    have hk : swept marked_p mark young h = h := by
      rcases hc with hy | hm
      · subst hy; exact swept_young marked_p mark h
      · cases young
        · rw [swept_weak_mature marked_p mark h huse hweak, hm]; rfl
        · exact swept_young marked_p mark h
    rw [hk] at hs
    exact ⟨hs, by simp [validate, Allocator.validate, hs, huse]⟩

/-- Witness of C3 as amended, on the one-slot table in the young context. -/
theorem deallocate_handles_weak_by_context_witness :
    lone_weak_table.allocator_.slot? ⟨0, 0⟩ = some ⟨true, true, some 7⟩ ∧
    validate (deallocate_handles 1 8 sample_marked_p lone_weak_table [] 0 true).1 ⟨0, 0⟩ = true :=
  ⟨by decide,
   ((deallocate_handles_weak_by_context 1 8 sample_marked_p lone_weak_table [] 0 true ⟨0, 0⟩
      ⟨true, true, some 7⟩ (by decide) (by decide) (by decide)).2 (Or.inl rfl)).2⟩

end Handles

namespace Handles

/-- C4, the code at the failing input. A young-context sweep of the sample
table keeps the weak handle of slot (1,1) in use with its object, but the
occupancy flag of its chunk stays false, so the rebuilt free list carries
its stable index 3 on top, and the next `allocate` hands the slot out again,
overwriting the kept handle. -/
theorem deallocate_handles_young_weak_reclaimed :
    sample_table.allocator_.slot? ⟨1, 1⟩ = some ⟨true, true, some 4⟩ ∧
    (deallocate_handles 2 8 sample_marked_p sample_table [] 1 true).1.allocator_.slot? ⟨1, 1⟩
      = some ⟨true, true, some 4⟩ ∧
    sweep_marks sample_marked_p sample_table 1 true = [true, false] ∧
    (deallocate_handles 2 8 sample_marked_p sample_table [] 1 true).1.allocator_.free_list_
      = [3, 2] ∧
    on_free_list 2 (deallocate_handles 2 8 sample_marked_p sample_table [] 1 true).1 ⟨1, 1⟩
      = true ∧
    (allocate 2 ⟨0⟩ (deallocate_handles 2 8 sample_marked_p sample_table [] 1 true).1
      (some 9)).1 = ⟨1, 1⟩ := by
  decide

/-- C5, the code at the failing input. After a young-context sweep of the
sample table three slots are in use (one strong handle, two weak handles
that were kept) while `objects_` reads 1: the kept weak handles are not
counted. -/
theorem deallocate_handles_young_objects_undercount :
    in_use_count (deallocate_handles 2 8 sample_marked_p sample_table [] 1 true).1.allocator_.chunks_
      = 3 ∧
    (deallocate_handles 2 8 sample_marked_p sample_table [] 1 true).1.diagnostic_.objects_ = 1 := by
  decide

theorem cleanup_cached_eq_filter (a : Allocator) (cached : List HandlePtr) :
    cleanup_cached a cached = cached.filter (fun p => (deref a p).in_use_p) := by
  induction cached with
  | nil => rfl
  | cons p rest ih =>
    by_cases hp : (deref a p).in_use_p = true
    · simp [cleanup_cached, List.filter_cons, hp, ih]
    · simp [cleanup_cached, List.filter_cons, hp, ih]

theorem deref_in_use_eq_validate (a : Allocator) (p : HandlePtr) :
    (deref a p).in_use_p = a.validate p := by
  unfold deref Allocator.validate
  cases a.slot? p <;> rfl

theorem deref_of_chunks (a b : Allocator) (h : a.chunks_ = b.chunks_) (p : HandlePtr) :
    deref a p = deref b p := by
  unfold deref Allocator.slot?
  rw [h]

/-- C6. The cleanup of the cached list keeps exactly the entries whose
handle is in use after the per-slot pass: the list handed back is the list
handed in filtered by that test, in the same order, nothing is added, and an
entry is in it if and only if it was in the list and validates as in use on
the table after the sweep. -/
theorem deallocate_handles_prunes_cached (cChunkSize sizeofHandle : Nat)
    (marked_p : ObjectPtr → Nat → Bool) (t : Handles) (cached : List HandlePtr)
    (mark : Nat) (young : Bool) :
    (deallocate_handles cChunkSize sizeofHandle marked_p t cached mark young).2
        = cached.filter
            (fun p => (deref (sweep_pass marked_p t mark young).allocator_ p).in_use_p) ∧
      List.Sublist (deallocate_handles cChunkSize sizeofHandle marked_p t cached mark young).2
        cached ∧
      ∀ p : HandlePtr,
        p ∈ (deallocate_handles cChunkSize sizeofHandle marked_p t cached mark young).2 ↔
          (p ∈ cached ∧
            validate (deallocate_handles cChunkSize sizeofHandle marked_p t cached mark young).1 p
              = true) := by
  have hres : (deallocate_handles cChunkSize sizeofHandle marked_p t cached mark young).2
      = cached.filter
          (fun p => (deref (sweep_pass marked_p t mark young).allocator_ p).in_use_p) := by
    simp only [deallocate_handles]
    exact cleanup_cached_eq_filter _ _
  have hval : ∀ p : HandlePtr,
      validate (deallocate_handles cChunkSize sizeofHandle marked_p t cached mark young).1 p
        = (deref (sweep_pass marked_p t mark young).allocator_ p).in_use_p := by
    intro p
    rw [deref_in_use_eq_validate]
    unfold validate Allocator.validate Allocator.slot?
    rw [deallocate_chunks, sweep_pass_chunks]
  refine ⟨hres, ?_, ?_⟩
  · rw [hres]; exact List.filter_sublist _
  · intro p
    rw [hres, List.mem_filter, hval]

end Handles

namespace Handles

theorem swept_idem (marked_p : ObjectPtr → Nat → Bool) (mark : Nat) (young : Bool)
    (h : Handle) :
    swept marked_p mark young (swept marked_p mark young h) = swept marked_p mark young h := by
  unfold swept
  by_cases hc : (h.in_use && h.weak && !young && !marked_p h.object mark) = true
  · simp [hc, Handle.clear]
  · simp [hc]

theorem counted_swept (marked_p : ObjectPtr → Nat → Bool) (mark : Nat) (young : Bool)
    (h : Handle) :
    counted marked_p mark young (swept marked_p mark young h) = counted marked_p mark young h := by
  unfold swept counted
  cases hm : marked_p h.object mark <;> cases hu : h.in_use <;> cases hw : h.weak <;>
    cases young <;> simp [hm, hu, hw, Handle.clear]

theorem deallocate_handles_eq (cChunkSize sizeofHandle : Nat)
    (marked_p : ObjectPtr → Nat → Bool) (t : Handles) (cached : List HandlePtr)
    (mark : Nat) (young : Bool) :
    deallocate_handles cChunkSize sizeofHandle marked_p t cached mark young =
      ({ allocator_ :=
           { chunks_ := t.allocator_.chunks_.map (List.map (swept marked_p mark young))
             free_list_ :=
               (Allocator.rebuild_chunks cChunkSize
                 (t.allocator_.chunks_.map (fun c => c.any (counted marked_p mark young)))
                 (t.allocator_.chunks_.map (List.map (swept marked_p mark young))) 0).1.reverse
             in_use_ :=
               (Allocator.rebuild_chunks cChunkSize
                 (t.allocator_.chunks_.map (fun c => c.any (counted marked_p mark young)))
                 (t.allocator_.chunks_.map (List.map (swept marked_p mark young))) 0).2 }
         diagnostic_ :=
           { objects_ :=
               (t.allocator_.chunks_.map
                 (fun c => c.countP (counted marked_p mark young))).sum
             bytes_ :=
               (Allocator.rebuild_chunks cChunkSize
                 (t.allocator_.chunks_.map (fun c => c.any (counted marked_p mark young)))
                 (t.allocator_.chunks_.map (List.map (swept marked_p mark young))) 0).2
                 * sizeofHandle
             collections_ := t.diagnostic_.collections_ } },
       cached.filter (fun p =>
         (deref { chunks_ := t.allocator_.chunks_.map (List.map (swept marked_p mark young))
                  free_list_ := [], in_use_ := 0 } p).in_use_p)) := by
  simp only [deallocate_handles, sweep_pass, sweep_marks, sweep_chunks_eq,
    Allocator.rebuild_freelist, cleanup_cached_eq_filter, Nat.zero_add]
  refine Prod.ext rfl ?_
  simp only
  apply List.filter_congr
  intro p _
  exact congrArg Handle.in_use_p (deref_of_chunks _ _ rfl p)

/-- C7. The pruning sweep is idempotent: running `deallocate_handles` a
second time, with the same mark token, generation context and liveness
oracle, on the table and cached list the first run handed back, hands back
the same table (slots, free list, counters, diagnostics) and the same
cached list. -/
theorem deallocate_handles_idempotent (cChunkSize sizeofHandle : Nat)
    (marked_p : ObjectPtr → Nat → Bool) (t : Handles) (cached : List HandlePtr)
    (mark : Nat) (young : Bool) :
    deallocate_handles cChunkSize sizeofHandle marked_p
        (deallocate_handles cChunkSize sizeofHandle marked_p t cached mark young).1
        (deallocate_handles cChunkSize sizeofHandle marked_p t cached mark young).2
        mark young
      = deallocate_handles cChunkSize sizeofHandle marked_p t cached mark young := by
  have hmap : ∀ cs : List (List Handle),
      (cs.map (List.map (swept marked_p mark young))).map (List.map (swept marked_p mark young))
        = cs.map (List.map (swept marked_p mark young)) := by
    intro cs
    simp only [List.map_map]
    apply List.map_congr_left
    intro c _
    simp only [Function.comp, List.map_map]
    apply List.map_congr_left
    intro h _
    exact swept_idem marked_p mark young h
  have hany : ∀ cs : List (List Handle),
      (cs.map (List.map (swept marked_p mark young))).map
          (fun c => c.any (counted marked_p mark young))
        = cs.map (fun c => c.any (counted marked_p mark young)) := by
    intro cs
    simp only [List.map_map]
    apply List.map_congr_left
    intro c _
    simp only [Function.comp, List.any_map]
    congr 1
    funext h
    exact counted_swept marked_p mark young h
  have hcnt : ∀ cs : List (List Handle),
      (cs.map (List.map (swept marked_p mark young))).map
          (fun c => c.countP (counted marked_p mark young))
        = cs.map (fun c => c.countP (counted marked_p mark young)) := by
    intro cs
    simp only [List.map_map]
    apply List.map_congr_left
    intro c _
    simp only [Function.comp, List.countP_map]
    congr 1
    funext h
    exact counted_swept marked_p mark young h
  rw [deallocate_handles_eq cChunkSize sizeofHandle marked_p t cached mark young]
  rw [deallocate_handles_eq]
  simp only [hmap, hany, hcnt, List.filter_filter, Bool.and_self]

end Handles

/-! ## Allocation -/

theorem modifyAt_length {α : Type} (f : α → α) (k : Nat) (l : List α) :
    (modifyAt f k l).length = l.length := by
  induction l generalizing k with
  | nil => cases k <;> rfl
  | cons x xs ih =>
    cases k with
    | zero => rfl
    | succ k => simp [modifyAt, ih]

theorem modifyAt_get?_same {α : Type} (f : α → α) (k : Nat) (l : List α) :
    (modifyAt f k l).get? k = (l.get? k).map f := by
  induction l generalizing k with
  | nil => cases k <;> rfl
  | cons x xs ih =>
    cases k with
    | zero => rfl
    | succ k => simpa [modifyAt] using ih k

theorem modifyAt_get?_other {α : Type} (f : α → α) (k m : Nat) (l : List α) (h : m ≠ k) :
    (modifyAt f k l).get? m = l.get? m := by
  induction l generalizing k m with
  | nil => cases k <;> rfl
  | cons x xs ih =>
    cases k with
    | zero =>
      cases m with
      | zero => exact absurd rfl h
      | succ m => rfl
    | succ k =>
      cases m with
      | zero => rfl
      | succ m =>
        simp only [modifyAt, List.get?_cons_succ]
        exact ih k m (fun hc => h (by rw [hc]))

namespace Allocator

theorem slot?_update_same (a : Allocator) (p : HandlePtr) (f : Handle → Handle) :
    (a.update p f).slot? p = (a.slot? p).map f := by
  unfold update slot?
  simp only [modifyAt_get?_same]
  cases a.chunks_.get? p.chunk with
  | none => rfl
  | some c => simpa using modifyAt_get?_same f p.offset c

theorem slot?_update_other (a : Allocator) (p q : HandlePtr) (f : Handle → Handle)
    (h : q ≠ p) : (a.update p f).slot? q = a.slot? q := by
  unfold update slot?
  by_cases hc : q.chunk = p.chunk
  · have ho : q.offset ≠ p.offset := by
      intro ho
      apply h
      cases p; cases q
      simp only [HandlePtr.mk.injEq]
      exact ⟨hc, ho⟩
    simp only [hc, modifyAt_get?_same]
    cases a.chunks_.get? p.chunk with
    | none => rfl
    | some c => simpa using modifyAt_get?_other f p.offset q.offset c ho
  · simp only [modifyAt_get?_other _ _ _ _ hc]

theorem update_length (a : Allocator) (p : HandlePtr) (f : Handle → Handle) :
    (a.update p f).chunks_.length = a.chunks_.length := by
  simp [update, modifyAt_length]

/-- The slot handed out by the allocator lies in an owned chunk. -/
theorem allocate_index_slot (cChunkSize : Nat) (a : Allocator)
    (hwf : a.well_formed cChunkSize) :
    ∃ h, (allocate_index cChunkSize a).2.2.slot?
        (from_index cChunkSize (allocate_index cChunkSize a).1) = some h := by
  obtain ⟨hn, hlen, hfree⟩ := hwf
  unfold allocate_index
  cases hfl : a.free_list_ with
  | nil =>
    simp only [slot?, from_index]
    have hdiv : (a.chunks_.length * cChunkSize + (cChunkSize - 1)) / cChunkSize
        = a.chunks_.length := by
      rw [Nat.mul_comm, Nat.mul_add_div hn, Nat.div_eq_of_lt (by omega)]
      rfl
    have hmod : (a.chunks_.length * cChunkSize + (cChunkSize - 1)) % cChunkSize
        = cChunkSize - 1 := by
      rw [Nat.mul_comm, Nat.mul_add_mod, Nat.mod_eq_of_lt (by omega)]
    rw [hdiv, hmod]
    refine ⟨Handle.free, ?_⟩
    simp only [List.get?_eq_getElem?]
    rw [List.getElem?_append_right (Nat.le_refl _)]
    simp only [Nat.sub_self, List.getElem?_cons_zero, Option.some_bind]
    rw [List.getElem?_replicate]
    simp [hn]
  | cons index rest =>
    simp only [slot?, from_index]
    have hidx : index < a.chunks_.length * cChunkSize :=
      hfree index (by rw [hfl]; exact List.mem_cons_self _ _)
    have hdiv : index / cChunkSize < a.chunks_.length :=
      (Nat.div_lt_iff_lt_mul hn).mpr hidx
    have hmod : index % cChunkSize < cChunkSize := Nat.mod_lt _ hn
    simp only [List.get?_eq_getElem?]
    rw [List.getElem?_eq_getElem hdiv]
    simp only [Option.some_bind]
    have hc : (a.chunks_[index / cChunkSize]).length = cChunkSize :=
      hlen _ (List.getElem_mem _)
    rw [List.getElem?_eq_getElem (by rw [hc]; exact hmod)]
    exact ⟨_, rfl⟩

end Allocator

namespace Handles

/-- C8. On a well-formed table (positive chunk size, chunks of that size,
free-list entries inside the owned chunks) the handle returned by
`allocate` is in use, strong and references the object passed in, and
`validate` returns true for it on the table the call leaves. -/
theorem allocate_returns_valid_strong (cChunkSize : Nat) (state : STATE) (t : Handles)
    (obj : ObjectPtr) (hwf : t.allocator_.well_formed cChunkSize) :
    (allocate cChunkSize state t obj).2.2.allocator_.slot? (allocate cChunkSize state t obj).1
        = some { in_use := true, weak := false, object := obj } ∧
      validate (allocate cChunkSize state t obj).2.2 (allocate cChunkSize state t obj).1
        = true := by
  obtain ⟨h, hslot⟩ := Allocator.allocate_index_slot cChunkSize t.allocator_ hwf
  have hs : (allocate cChunkSize state t obj).2.2.allocator_.slot?
      (allocate cChunkSize state t obj).1
        = some { in_use := true, weak := false, object := obj } := by
    unfold allocate
    simp only [Allocator.allocate]
    split
    · simp only [bump_collections, Allocator.slot?_update_same, hslot]
      rfl
    · simp only [Allocator.slot?_update_same, hslot]
      rfl
  exact ⟨hs, by simp [validate, Allocator.validate, hs, Handle.in_use_p]⟩

end Handles

namespace Handles

/-- Witness of C8: the first allocation on the table that owns no chunk, with
chunks of four slots. -/
theorem allocate_returns_valid_strong_witness :
    no_chunk_table.allocator_.well_formed 4 ∧
    (allocate 4 ⟨0⟩ no_chunk_table (some 1)).2.2.allocator_.slot? (allocate 4 ⟨0⟩ no_chunk_table (some 1)).1
        = some { in_use := true, weak := false, object := some 1 } ∧
    validate (allocate 4 ⟨0⟩ no_chunk_table (some 1)).2.2 (allocate 4 ⟨0⟩ no_chunk_table (some 1)).1 = true :=
  ⟨⟨by decide, by simp [no_chunk_table], by simp [no_chunk_table]⟩,
   allocate_returns_valid_strong 4 ⟨0⟩ no_chunk_table (some 1) ⟨by decide, by simp [no_chunk_table], by simp [no_chunk_table]⟩⟩

theorem allocate_step (cChunkSize : Nat) (state : STATE) (t : Handles) (obj : ObjectPtr) :
    (t.allocator_.free_list_ = [] ∧
        (allocate cChunkSize state t obj).2.2.allocator_.chunks_.length
          = t.allocator_.chunks_.length + 1 ∧
        (allocate cChunkSize state t obj).2.2.diagnostic_.collections_
          = t.diagnostic_.collections_ + 1 ∧
        (allocate cChunkSize state t obj).2.1.full_collection_requests
          = state.full_collection_requests + 1) ∨
      (t.allocator_.free_list_ ≠ [] ∧
        (allocate cChunkSize state t obj).2.2.allocator_.chunks_.length
          = t.allocator_.chunks_.length ∧
        (allocate cChunkSize state t obj).2.2.diagnostic_.collections_
          = t.diagnostic_.collections_ ∧
        (allocate cChunkSize state t obj).2.1.full_collection_requests
          = state.full_collection_requests) := by
  unfold allocate Allocator.allocate Allocator.allocate_index
  cases hfl : t.allocator_.free_list_ with
  | nil =>
    left
    simp [bump_collections, schedule_full_collection, Allocator.update_length]
  | cons index rest =>
    right
    simp [Allocator.update_length]

theorem allocate_index_step (cChunkSize : Nat) (state : STATE) (t : Handles) (obj : ObjectPtr)
    (index : Nat) (state1 : STATE) (t1 : Handles)
    (h : allocate_index cChunkSize state t obj = IndexOutcome.returned index state1 t1) :
    (t.allocator_.free_list_ = [] ∧
        t1.allocator_.chunks_.length = t.allocator_.chunks_.length + 1 ∧
        t1.diagnostic_.collections_ = t.diagnostic_.collections_ + 1 ∧
        state1.full_collection_requests = state.full_collection_requests + 1) ∨
      (t.allocator_.free_list_ ≠ [] ∧
        t1.allocator_.chunks_.length = t.allocator_.chunks_.length ∧
        t1.diagnostic_.collections_ = t.diagnostic_.collections_ ∧
        state1.full_collection_requests = state.full_collection_requests) := by
  unfold allocate_index Allocator.allocate_index at h
  cases hfl : t.allocator_.free_list_ with
  | nil =>
    left
    rw [hfl] at h
    simp only [] at h
    split at h
    · cases h
    · simp only [if_true, IndexOutcome.returned.injEq] at h
      obtain ⟨_, hs, ht⟩ := h
      subst hs; subst ht
      simp [bump_collections, schedule_full_collection, Allocator.update_length]
  | cons i rest =>
    right
    rw [hfl] at h
    simp only [] at h
    split at h
    · cases h
    · simp only [Bool.false_eq_true, if_false, IndexOutcome.returned.injEq] at h
      obtain ⟨_, hs, ht⟩ := h
      subst hs; subst ht
      simp [Allocator.update_length]

theorem run_allocations_growth (cChunkSize : Nat) (calls : List AllocCall) :
    ∀ (state : STATE) (t : Handles) (state1 : STATE) (t1 : Handles),
      run_allocations cChunkSize calls state t = some (state1, t1) →
      t.allocator_.chunks_.length ≤ t1.allocator_.chunks_.length ∧
        t1.diagnostic_.collections_ = t.diagnostic_.collections_ +
          (t1.allocator_.chunks_.length - t.allocator_.chunks_.length) ∧
        state1.full_collection_requests = state.full_collection_requests +
          (t1.allocator_.chunks_.length - t.allocator_.chunks_.length) := by
  induction calls with
  | nil =>
    intro state t state1 t1 h
    simp only [run_allocations, Option.some.injEq, Prod.mk.injEq] at h
    obtain ⟨hs, ht⟩ := h
    subst hs; subst ht
    simp
  | cons call rest ih =>
    intro state t state1 t1 h
    cases call with
    | by_pointer obj =>
      simp only [run_allocations] at h
      have hrest := ih _ _ _ _ h
      have hstep := allocate_step cChunkSize state t obj
      omega
    | by_index obj =>
      simp only [run_allocations] at h
      cases hout : allocate_index cChunkSize state t obj with
      | aborted s2 t2 => rw [hout] at h; cases h
      | returned index s2 t2 =>
        rw [hout] at h
        have hrest := ih _ _ _ _ h
        have hstep := allocate_index_step cChunkSize state t obj index s2 t2 hout
        omega

end Handles

namespace Handles

/-- C9. Every call of `allocate`, and every call of `allocate_index` that
returns, either grows the allocator by one chunk (which happens exactly
when the free list is empty), increments `collections_` by one and issues
one `schedule_full_collection` request, or leaves the number of chunks,
`collections_` and the number of requests as they were.  Hence over any
sequence of allocation calls that run to the end `collections_` and the
number of requests both increase by the number of chunks appended. -/
theorem allocation_counts_growth (cChunkSize : Nat) (state : STATE) (t : Handles)
    (obj : ObjectPtr) :
    ((t.allocator_.free_list_ = [] ∧
          (allocate cChunkSize state t obj).2.2.allocator_.chunks_.length
            = t.allocator_.chunks_.length + 1 ∧
          (allocate cChunkSize state t obj).2.2.diagnostic_.collections_
            = t.diagnostic_.collections_ + 1 ∧
          (allocate cChunkSize state t obj).2.1.full_collection_requests
            = state.full_collection_requests + 1) ∨
        (t.allocator_.free_list_ ≠ [] ∧
          (allocate cChunkSize state t obj).2.2.allocator_.chunks_.length
            = t.allocator_.chunks_.length ∧
          (allocate cChunkSize state t obj).2.2.diagnostic_.collections_
            = t.diagnostic_.collections_ ∧
          (allocate cChunkSize state t obj).2.1.full_collection_requests
            = state.full_collection_requests)) ∧
      (∀ (index : Nat) (state1 : STATE) (t1 : Handles),
        allocate_index cChunkSize state t obj = IndexOutcome.returned index state1 t1 →
          (t.allocator_.free_list_ = [] ∧
              t1.allocator_.chunks_.length = t.allocator_.chunks_.length + 1 ∧
              t1.diagnostic_.collections_ = t.diagnostic_.collections_ + 1 ∧
              state1.full_collection_requests = state.full_collection_requests + 1) ∨
            (t.allocator_.free_list_ ≠ [] ∧
              t1.allocator_.chunks_.length = t.allocator_.chunks_.length ∧
              t1.diagnostic_.collections_ = t.diagnostic_.collections_ ∧
              state1.full_collection_requests = state.full_collection_requests)) ∧
      (∀ (calls : List AllocCall) (state1 : STATE) (t1 : Handles),
        run_allocations cChunkSize calls state t = some (state1, t1) →
          t.allocator_.chunks_.length ≤ t1.allocator_.chunks_.length ∧
            t1.diagnostic_.collections_ = t.diagnostic_.collections_ +
              (t1.allocator_.chunks_.length - t.allocator_.chunks_.length) ∧
            state1.full_collection_requests = state.full_collection_requests +
              (t1.allocator_.chunks_.length - t.allocator_.chunks_.length)) :=
  ⟨allocate_step cChunkSize state t obj,
   fun index state1 t1 h => allocate_index_step cChunkSize state t obj index state1 t1 h,
   fun calls state1 t1 h => run_allocations_growth cChunkSize calls state t state1 t1 h⟩

/-- Witness of C9: the five sample calls, by pointer and by index, on a
table that owns no chunk, with chunks of two slots, append three chunks, and `collections_`
and the number of requests both read 3 afterwards. -/
theorem allocation_counts_growth_witness :
    run_allocations 2 sample_calls ⟨0⟩ no_chunk_table = some (⟨3⟩, sample_calls_table) ∧
      (no_chunk_table.allocator_.chunks_.length ≤ sample_calls_table.allocator_.chunks_.length ∧
        sample_calls_table.diagnostic_.collections_ = no_chunk_table.diagnostic_.collections_ +
          (sample_calls_table.allocator_.chunks_.length - no_chunk_table.allocator_.chunks_.length) ∧
        (3 : Nat) = 0 +
          (sample_calls_table.allocator_.chunks_.length - no_chunk_table.allocator_.chunks_.length)) :=
  ⟨by decide,
    (allocation_counts_growth 2 ⟨0⟩ no_chunk_table none).2.2 sample_calls ⟨3⟩ sample_calls_table
      (by decide)⟩

/-- C10. `allocate_index` aborts if and only if the index obtained from
the allocator exceeds `UINT32_MAX`, which is 2^32 - 1.  When it returns,
the result is exactly the allocator's index and is at most 2^32 - 1.  When
it aborts, the machine state and the diagnostics are untouched and the table
holds the allocator as its own `allocate_index` left it: the chunks are the
old chunks, unchanged, possibly followed by one new chunk of free slots, so
no handle has been initialised with the object. -/
theorem allocate_index_abort_iff (cChunkSize : Nat) (state : STATE) (t : Handles)
    (obj : ObjectPtr) :
    UINT32_MAX = 4294967295 ∧
      ((∃ state1 t1, allocate_index cChunkSize state t obj = IndexOutcome.aborted state1 t1) ↔
        (Allocator.allocate_index cChunkSize t.allocator_).1 > UINT32_MAX) ∧
      (∀ (index : Nat) (state1 : STATE) (t1 : Handles),
        allocate_index cChunkSize state t obj = IndexOutcome.returned index state1 t1 →
          index = (Allocator.allocate_index cChunkSize t.allocator_).1 ∧
            index ≤ 4294967295) ∧
      (∀ (state1 : STATE) (t1 : Handles),
        allocate_index cChunkSize state t obj = IndexOutcome.aborted state1 t1 →
          state1 = state ∧ t1.diagnostic_ = t.diagnostic_ ∧
            t1.allocator_ = (Allocator.allocate_index cChunkSize t.allocator_).2.2 ∧
            (t1.allocator_.chunks_ = t.allocator_.chunks_ ∨
              t1.allocator_.chunks_
                = t.allocator_.chunks_ ++ [List.replicate cChunkSize Handle.free])) := by
  have hmax : UINT32_MAX = 4294967295 := by decide
  have hchunks : (Allocator.allocate_index cChunkSize t.allocator_).2.2.chunks_
        = t.allocator_.chunks_ ∨
      (Allocator.allocate_index cChunkSize t.allocator_).2.2.chunks_
        = t.allocator_.chunks_ ++ [List.replicate cChunkSize Handle.free] := by
    unfold Allocator.allocate_index
    cases t.allocator_.free_list_ with
    | nil => right; rfl
    | cons i rest => left; rfl
  refine ⟨hmax, ?_, ?_, ?_⟩
  · constructor
    · rintro ⟨state1, t1, h⟩
      unfold allocate_index at h
      simp only [] at h
      split at h
      · assumption
      · split at h <;> cases h
    · intro hgt
      refine ⟨state, { t with allocator_ := (Allocator.allocate_index cChunkSize t.allocator_).2.2 }, ?_⟩
      unfold allocate_index
      simp only [hgt, if_true]
  · intro index state1 t1 h
    unfold allocate_index at h
    simp only [] at h
    split at h
    · cases h
    · rename_i hle
      have hidx : index = (Allocator.allocate_index cChunkSize t.allocator_).1 := by
        split at h
        · simp only [IndexOutcome.returned.injEq] at h
          exact h.1.symm
        · simp only [IndexOutcome.returned.injEq] at h
          exact h.1.symm
      refine ⟨hidx, ?_⟩
      rw [hidx]
      rw [hmax] at hle
      omega
  · intro state1 t1 h
    unfold allocate_index at h
    simp only [] at h
    split at h
    · simp only [IndexOutcome.aborted.injEq] at h
      obtain ⟨hs, ht⟩ := h
      subst hs; subst ht
      exact ⟨rfl, rfl, rfl, hchunks⟩
    · split at h <;> cases h

end Handles

namespace Handles

/-- Witness of C10: on the table that owns no chunk, with (hypothetical) chunks of
2^32 + 1 slots the first index the allocator hands out is 2^32, and
`allocate_index` aborts. -/
theorem allocate_index_abort_iff_witness :
    (Allocator.allocate_index 4294967297 no_chunk_table.allocator_).1 > UINT32_MAX ∧
      ∃ state1 t1,
        allocate_index 4294967297 ⟨0⟩ no_chunk_table (some 1) = IndexOutcome.aborted state1 t1 :=
  ⟨by decide, (allocate_index_abort_iff 4294967297 ⟨0⟩ no_chunk_table (some 1)).2.1.mpr (by decide)⟩

end Handles

/-! ## Well-formedness is an invariant -/

theorem mem_modifyAt {α : Type} (f : α → α) (k : Nat) (l : List α) (x : α)
    (h : x ∈ modifyAt f k l) : x ∈ l ∨ ∃ y ∈ l, x = f y := by
  induction l generalizing k with
  | nil => cases k <;> simp [modifyAt] at h
  | cons a as ih =>
    cases k with
    | zero =>
      simp only [modifyAt, List.mem_cons] at h
      rcases h with h | h
      · right; exact ⟨a, List.mem_cons_self _ _, h⟩
      · left; exact List.mem_cons_of_mem _ h
    | succ k =>
      simp only [modifyAt, List.mem_cons] at h
      rcases h with h | h
      · left; rw [h]; exact List.mem_cons_self _ _
      · rcases ih k h with h1 | ⟨y, hy, hxy⟩
        · left; exact List.mem_cons_of_mem _ h1
        · right; exact ⟨y, List.mem_cons_of_mem _ hy, hxy⟩

namespace Allocator

theorem well_formed_update (cChunkSize : Nat) (a : Allocator) (p : HandlePtr)
    (f : Handle → Handle) (hwf : a.well_formed cChunkSize) :
    (a.update p f).well_formed cChunkSize := by
  obtain ⟨hn, hlen, hfree⟩ := hwf
  refine ⟨hn, ?_, ?_⟩
  · intro c hc
    rcases mem_modifyAt _ _ _ _ hc with h | ⟨y, hy, hcy⟩
    · exact hlen c h
    · rw [hcy, modifyAt_length]; exact hlen y hy
  · intro index hi
    rw [update_length]
    exact hfree index hi

theorem well_formed_pop_or_grow (cChunkSize : Nat) (a : Allocator)
    (hwf : a.well_formed cChunkSize) :
    (allocate_index cChunkSize a).2.2.well_formed cChunkSize := by
  obtain ⟨hn, hlen, hfree⟩ := hwf
  unfold allocate_index
  cases hfl : a.free_list_ with
  | nil =>
    refine ⟨hn, ?_, ?_⟩
    · intro c hc
      simp only [List.mem_append, List.mem_singleton] at hc
      rcases hc with hc | hc
      · exact hlen c hc
      · rw [hc, List.length_replicate]
    · intro index hi
      simp only [List.mem_reverse, List.mem_map, List.mem_range] at hi
      obtain ⟨j, hj, hji⟩ := hi
      simp only [List.length_append, List.length_singleton]
      rw [Nat.add_mul, Nat.one_mul]
      omega
  | cons index rest =>
    refine ⟨hn, hlen, ?_⟩
    intro i hi
    exact hfree i (by rw [hfl]; exact List.mem_cons_of_mem _ hi)

theorem rebuild_chunk_bound (cChunkSize i : Nat) (occupied : Bool) (hs : List Handle) (j : Nat) :
    ∀ index ∈ (rebuild_chunk cChunkSize i occupied hs j).1,
      index < i * cChunkSize + j + hs.length := by
  induction hs generalizing j with
  | nil => intro index hi; simp [rebuild_chunk] at hi
  | cons h rest ih =>
    intro index hi
    simp only [rebuild_chunk] at hi
    split at hi
    · simp only [List.mem_cons] at hi
      rcases hi with hi | hi
      · simp only [List.length_cons]; omega
      · have := ih (j + 1) index hi
        simp only [List.length_cons]; omega
    · have := ih (j + 1) index hi
      simp only [List.length_cons]; omega

theorem rebuild_chunks_bound (cChunkSize : Nat) (chunk_marks : List Bool)
    (cs : List (List Handle)) (i : Nat) (hlen : ∀ c ∈ cs, c.length = cChunkSize) :
    ∀ index ∈ (rebuild_chunks cChunkSize chunk_marks cs i).1,
      index < (i + cs.length) * cChunkSize := by
  induction cs generalizing i with
  | nil => intro index hi; simp [rebuild_chunks] at hi
  | cons c rest ih =>
    intro index hi
    simp only [rebuild_chunks, List.mem_append] at hi
    have hexp : (i + (c :: rest).length) * cChunkSize
        = i * cChunkSize + cChunkSize + rest.length * cChunkSize := by
      simp only [List.length_cons]
      rw [Nat.add_mul, Nat.add_mul, Nat.one_mul]
      omega
    rcases hi with hi | hi
    · have hb := rebuild_chunk_bound cChunkSize i _ c 0 index hi
      rw [hlen c (List.mem_cons_self _ _)] at hb
      omega
    · have hb := ih (i + 1) (fun c' hc' => hlen c' (List.mem_cons_of_mem _ hc')) index hi
      rw [Nat.add_mul, Nat.add_mul, Nat.one_mul] at hb
      omega

end Allocator

namespace Handles

theorem well_formed_no_chunk_table (cChunkSize : Nat) (hn : 0 < cChunkSize) :
    no_chunk_table.allocator_.well_formed cChunkSize :=
  ⟨hn, by simp [no_chunk_table], by simp [no_chunk_table]⟩

theorem well_formed_new (cChunkSize : Nat) (hn : 0 < cChunkSize) :
    (new cChunkSize).allocator_.well_formed cChunkSize := by
  refine ⟨hn, ?_, ?_⟩
  · intro c hc
    simp only [new, Allocator.new, List.mem_singleton] at hc
    rw [hc, List.length_replicate]
  · intro index hi
    simp only [new, Allocator.new, List.mem_reverse, List.mem_range] at hi
    simp only [new, Allocator.new, List.length_singleton, Nat.one_mul]
    exact hi

theorem nodup_new (cChunkSize : Nat) : (new cChunkSize).allocator_.free_list_.Nodup := by
  simp only [new, Allocator.new, List.nodup_reverse]
  exact List.nodup_range _

theorem well_formed_allocate (cChunkSize : Nat) (state : STATE) (t : Handles)
    (obj : ObjectPtr) (hwf : t.allocator_.well_formed cChunkSize) :
    (allocate cChunkSize state t obj).2.2.allocator_.well_formed cChunkSize := by
  have h := Allocator.well_formed_update cChunkSize _
    (Allocator.from_index cChunkSize (Allocator.allocate_index cChunkSize t.allocator_).1)
    (fun h => h.set_object obj)
    (Allocator.well_formed_pop_or_grow cChunkSize t.allocator_ hwf)
  unfold allocate Allocator.allocate
  simp only []
  split
  · exact h
  · exact h

theorem well_formed_allocate_index (cChunkSize : Nat) (state : STATE) (t : Handles)
    (obj : ObjectPtr) (index : Nat) (state1 : STATE) (t1 : Handles)
    (hwf : t.allocator_.well_formed cChunkSize)
    (hout : allocate_index cChunkSize state t obj = IndexOutcome.returned index state1 t1) :
    t1.allocator_.well_formed cChunkSize := by
  have h := Allocator.well_formed_update cChunkSize _
    (Allocator.from_index cChunkSize (Allocator.allocate_index cChunkSize t.allocator_).1)
    (fun h => h.set_object obj)
    (Allocator.well_formed_pop_or_grow cChunkSize t.allocator_ hwf)
  unfold allocate_index at hout
  simp only [] at hout
  split at hout
  · cases hout
  · split at hout
    · simp only [IndexOutcome.returned.injEq] at hout
      obtain ⟨_, _, ht⟩ := hout
      subst ht
      exact h
    · simp only [IndexOutcome.returned.injEq] at hout
      obtain ⟨_, _, ht⟩ := hout
      subst ht
      exact h

theorem well_formed_deallocate_handles (cChunkSize sizeofHandle : Nat)
    (marked_p : ObjectPtr → Nat → Bool) (t : Handles) (cached : List HandlePtr)
    (mark : Nat) (young : Bool) (hwf : t.allocator_.well_formed cChunkSize) :
    (deallocate_handles cChunkSize sizeofHandle marked_p t cached mark
      young).1.allocator_.well_formed cChunkSize := by
  obtain ⟨hn, hlen, _⟩ := hwf
  rw [deallocate_handles_eq]
  have hlen' : ∀ c ∈ t.allocator_.chunks_.map (List.map (swept marked_p mark young)),
      c.length = cChunkSize := by
    intro c hc
    simp only [List.mem_map] at hc
    obtain ⟨c0, hc0, hcc⟩ := hc
    rw [← hcc, List.length_map]
    exact hlen c0 hc0
  refine ⟨hn, hlen', ?_⟩
  intro index hi
  simp only [List.mem_reverse] at hi
  have hb := Allocator.rebuild_chunks_bound cChunkSize _ _ 0 hlen' index hi
  simpa using hb

end Handles

namespace Handles

/-- In the mature context the recount is exact: `objects_` after the sweep
is the number of slots in use after it. -/
theorem deallocate_handles_objects_mature (cChunkSize sizeofHandle : Nat)
    (marked_p : ObjectPtr → Nat → Bool) (t : Handles) (cached : List HandlePtr) (mark : Nat) :
    (deallocate_handles cChunkSize sizeofHandle marked_p t cached mark false).1.diagnostic_.objects_
      = in_use_count
          (deallocate_handles cChunkSize sizeofHandle marked_p t cached mark
            false).1.allocator_.chunks_ := by
  rw [deallocate_handles_eq]
  simp only [in_use_count, List.map_map]
  congr 1
  apply List.map_congr_left
  intro c _
  simp only [Function.comp, List.countP_map]
  congr 1
  funext h
  simp only [Function.comp, counted, swept, Handle.in_use_p]
  cases hm : marked_p h.object mark <;> cases hu : h.in_use <;> cases hw : h.weak <;>
    simp [hu, Handle.clear]

end Handles

/-! ## Teardown -/

namespace Handles

theorem destroy_clear_slot? (t : Handles) (p : HandlePtr) :
    (destroy_clear t).allocator_.slot? p =
      (t.allocator_.slot? p).map (fun handle => if handle.in_use_p then handle.clear else handle) :=
  slot?_of_chunks _ _ _ (by simp [destroy_clear]) p

/-- C18. After the clearing loop of the destructor no slot of any chunk is
in use: a slot that was in use holds the cleared handle (free, no object
reference), a slot that was already free is left exactly as it was, and
the chunks are the same in number. -/
theorem destroy_clear_frees_all (t : Handles) (p : HandlePtr) :
    (∀ h : Handle, (destroy_clear t).allocator_.slot? p = some h → h.in_use_p = false) ∧
      validate (destroy_clear t) p = false ∧
      (∀ h : Handle, t.allocator_.slot? p = some h → h.in_use_p = false →
        (destroy_clear t).allocator_.slot? p = some h) ∧
      (∀ h : Handle, t.allocator_.slot? p = some h → h.in_use_p = true →
        (destroy_clear t).allocator_.slot? p = some h.clear) ∧
      (destroy_clear t).allocator_.chunks_.length = t.allocator_.chunks_.length := by
  have hs := destroy_clear_slot? t p
  have hfree : ∀ h : Handle, (destroy_clear t).allocator_.slot? p = some h →
      h.in_use_p = false := by
    intro h hh
    rw [hs] at hh
    cases hb : t.allocator_.slot? p with
    | none => rw [hb] at hh; cases hh
    | some h0 =>
      rw [hb, Option.map_some', Option.some.injEq] at hh
      rw [← hh]
      by_cases hu : h0.in_use_p = true
      · rw [if_pos hu]; rfl
      · rw [if_neg hu]; simpa using hu
  refine ⟨hfree, ?_, ?_, ?_, ?_⟩
  · unfold validate Allocator.validate
    cases hb : (destroy_clear t).allocator_.slot? p with
    | none => rfl
    | some h => exact hfree h hb
  · intro h hb hu
    rw [hs, hb, Option.map_some']
    simp [hu]
  · intro h hb hu
    rw [hs, hb, Option.map_some']
    simp [hu]
  · simp [destroy_clear]

end Handles

/-! ## Frame of the per-slot pass -/

namespace Handles

theorem sweep_pass_slot? (marked_p : ObjectPtr → Nat → Bool) (t : Handles) (mark : Nat)
    (young : Bool) (p : HandlePtr) :
    (sweep_pass marked_p t mark young).allocator_.slot? p =
      (t.allocator_.slot? p).map (swept marked_p mark young) :=
  slot?_of_chunks _ _ _ (sweep_pass_chunks marked_p t mark young) p

theorem swept_cases (marked_p : ObjectPtr → Nat → Bool) (mark : Nat) (young : Bool)
    (h : Handle) :
    swept marked_p mark young h = h ∨
      (swept marked_p mark young h = h.clear ∧ h.in_use_p = true ∧ h.weak_p = true ∧
        young = false ∧ marked_p h.object mark = false) := by
  unfold swept Handle.in_use_p Handle.weak_p
  by_cases hc : (h.in_use && h.weak && !young && !marked_p h.object mark) = true
  · right
    rw [if_pos hc]
    simp only [Bool.and_eq_true, Bool.not_eq_true'] at hc
    exact ⟨rfl, hc.1.1.1, hc.1.1.2, hc.1.2, hc.2⟩
  · left
    rw [if_neg hc]

/-- C19. The per-slot pass only ever clears handles.  At every slot
position: a slot that is free before the pass is left exactly as it was; a
handle that is in use after the pass is the very handle that was there
before (same object reference, same weak/strong flag); a handle that was in
use and is no longer so was weak, was met in the mature context with an
unmarked object, and is now the cleared handle; a position outside the
chunks stays outside.  The pass and the whole sweep leave the number of
chunks, the size of every chunk and `collections_` unchanged. -/
theorem sweep_pass_only_clears (cChunkSize sizeofHandle : Nat)
    (marked_p : ObjectPtr → Nat → Bool) (t : Handles) (cached : List HandlePtr)
    (mark : Nat) (young : Bool) (p : HandlePtr) :
    (∀ h : Handle, t.allocator_.slot? p = some h → h.in_use_p = false →
        (sweep_pass marked_p t mark young).allocator_.slot? p = some h) ∧
      (∀ h : Handle, (sweep_pass marked_p t mark young).allocator_.slot? p = some h →
        h.in_use_p = true → t.allocator_.slot? p = some h) ∧
      (∀ h : Handle, t.allocator_.slot? p = some h → h.in_use_p = true →
        validate (sweep_pass marked_p t mark young) p = false →
          h.weak_p = true ∧ young = false ∧ marked_p h.object mark = false ∧
            (sweep_pass marked_p t mark young).allocator_.slot? p = some h.clear) ∧
      (t.allocator_.slot? p = none →
        (sweep_pass marked_p t mark young).allocator_.slot? p = none) ∧
      (sweep_pass marked_p t mark young).allocator_.chunks_.map List.length
        = t.allocator_.chunks_.map List.length ∧
      (sweep_pass marked_p t mark young).allocator_.chunks_.length
        = t.allocator_.chunks_.length ∧
      (sweep_pass marked_p t mark young).diagnostic_.collections_
        = t.diagnostic_.collections_ ∧
      (deallocate_handles cChunkSize sizeofHandle marked_p t cached mark
          young).1.allocator_.chunks_
        = (sweep_pass marked_p t mark young).allocator_.chunks_ ∧
      (deallocate_handles cChunkSize sizeofHandle marked_p t cached mark
          young).1.diagnostic_.collections_
        = t.diagnostic_.collections_ := by
  have hs := sweep_pass_slot? marked_p t mark young p
  refine ⟨?_, ?_, ?_, ?_, ?_, ?_, ?_, ?_, ?_⟩
  · intro h hb hu
    rw [hs, hb, Option.map_some']
    rcases swept_cases marked_p mark young h with hk | ⟨_, hin, _⟩
    · rw [hk]
    · rw [hu] at hin; cases hin
  · intro h ha hu
    rw [hs] at ha
    cases hb : t.allocator_.slot? p with
    | none => rw [hb] at ha; cases ha
    | some h0 =>
      rw [hb, Option.map_some', Option.some.injEq] at ha
      rcases swept_cases marked_p mark young h0 with hk | ⟨hk, _⟩
      · rw [hk] at ha; rw [ha]
      · rw [hk] at ha
        rw [← ha] at hu
        simp [Handle.clear, Handle.in_use_p] at hu
  · intro h hb hu hv
    unfold validate Allocator.validate at hv
    rw [hs, hb, Option.map_some'] at hv
    simp only [] at hv
    rcases swept_cases marked_p mark young h with hk | ⟨hk, _, hw, hy, hm⟩
    · rw [hk, hu] at hv; cases hv
    · refine ⟨hw, hy, hm, ?_⟩
      rw [hs, hb, Option.map_some', hk]
  · intro hb
    rw [hs, hb]
    rfl
  · rw [sweep_pass_chunks]
    simp [List.map_map, Function.comp]
  · rw [sweep_pass_chunks]
    simp
  · simp [sweep_pass]
  · rw [deallocate_chunks, sweep_pass_chunks]
  · rw [deallocate_handles_eq]

end Handles

/-! ## Allocation by index and by pointer -/

namespace Handles

/-- C15. Whenever the index the allocator hands out is at most 2^32 - 1,
`allocate_index` returns that index and leaves exactly the machine state
and the table (slots, free list, in-use count, diagnostics) that `allocate`
leaves for the same object, and `from_index` of the returned index is the
handle `allocate` returns. -/
theorem allocate_index_agrees_with_allocate (cChunkSize : Nat) (state : STATE) (t : Handles)
    (obj : ObjectPtr)
    (hle : (Allocator.allocate_index cChunkSize t.allocator_).1 ≤ UINT32_MAX) :
    allocate_index cChunkSize state t obj
        = IndexOutcome.returned (Allocator.allocate_index cChunkSize t.allocator_).1
            (allocate cChunkSize state t obj).2.1 (allocate cChunkSize state t obj).2.2 ∧
      Allocator.from_index cChunkSize (Allocator.allocate_index cChunkSize t.allocator_).1
        = (allocate cChunkSize state t obj).1 := by
  have hng : ¬ (Allocator.allocate_index cChunkSize t.allocator_).1 > UINT32_MAX :=
    Nat.not_lt.mpr hle
  unfold allocate_index allocate Allocator.allocate
  simp only [hng, if_false]
  cases (Allocator.allocate_index cChunkSize t.allocator_).2.1
  · exact ⟨rfl, rfl⟩
  · exact ⟨rfl, rfl⟩

/-- Witness of C15: the first allocation on the table that owns no chunk, with chunks of
four slots, by index and by pointer. -/
theorem allocate_index_agrees_with_allocate_witness :
    (Allocator.allocate_index 4 no_chunk_table.allocator_).1 ≤ UINT32_MAX ∧
    allocate_index 4 ⟨0⟩ no_chunk_table (some 1)
        = IndexOutcome.returned 3 (allocate 4 ⟨0⟩ no_chunk_table (some 1)).2.1
            (allocate 4 ⟨0⟩ no_chunk_table (some 1)).2.2 ∧
      Allocator.from_index 4 3 = (allocate 4 ⟨0⟩ no_chunk_table (some 1)).1 :=
  ⟨by decide, allocate_index_agrees_with_allocate 4 ⟨0⟩ no_chunk_table (some 1) (by decide)⟩

/-- Witness of C18 on the sample table. -/
theorem destroy_clear_frees_all_witness :
    validate (destroy_clear sample_table) ⟨0, 1⟩ = false ∧
      (destroy_clear sample_table).allocator_.chunks_.length = 2 :=
  ⟨(destroy_clear_frees_all sample_table ⟨0, 1⟩).2.1, by decide⟩

/-- Witness of C19 on the sample table: the strong handle of slot (0,0),
still in use after a mature pass under mark token 1, is the handle that was
there before. -/
theorem sweep_pass_only_clears_witness :
    (sweep_pass sample_marked_p sample_table 1 false).allocator_.slot? ⟨0, 0⟩
        = some ⟨true, false, some 1⟩ ∧
      sample_table.allocator_.slot? ⟨0, 0⟩ = some ⟨true, false, some 1⟩ :=
  ⟨by decide,
   (sweep_pass_only_clears 2 8 sample_marked_p sample_table [] 1 false ⟨0, 0⟩).2.1
     ⟨true, false, some 1⟩ (by decide) (by decide)⟩

end Handles

/-! ## Runs of `allocate_index` -/

namespace Allocator

theorem allocate_index_cases (cChunkSize : Nat) (a : Allocator) :
    (∃ rest, a.free_list_ = (allocate_index cChunkSize a).1 :: rest ∧
        (allocate_index cChunkSize a).2.2.free_list_ = rest ∧
        (allocate_index cChunkSize a).2.2.chunks_ = a.chunks_) ∨
      (a.free_list_ = [] ∧
        (allocate_index cChunkSize a).1 = a.chunks_.length * cChunkSize + (cChunkSize - 1) ∧
        (allocate_index cChunkSize a).2.2.free_list_
          = ((List.range (cChunkSize - 1)).map
              (fun j => a.chunks_.length * cChunkSize + j)).reverse ∧
        (allocate_index cChunkSize a).2.2.chunks_
          = a.chunks_ ++ [List.replicate cChunkSize Handle.free]) := by
  unfold allocate_index
  cases hfl : a.free_list_ with
  | nil => right; exact ⟨rfl, rfl, rfl, rfl⟩
  | cons index rest => left; exact ⟨rest, rfl, rfl, rfl⟩

theorem update_free_list (a : Allocator) (p : HandlePtr) (f : Handle → Handle) :
    (a.update p f).free_list_ = a.free_list_ := rfl

end Allocator

namespace Handles

theorem allocate_index_returned (cChunkSize : Nat) (state : STATE) (t : Handles)
    (obj : ObjectPtr) (index : Nat) (state1 : STATE) (t1 : Handles)
    (h : allocate_index cChunkSize state t obj = IndexOutcome.returned index state1 t1) :
    index = (Allocator.allocate_index cChunkSize t.allocator_).1 ∧
      index ≤ UINT32_MAX ∧
      t1.allocator_ =
        Allocator.update (Allocator.allocate_index cChunkSize t.allocator_).2.2
          (Allocator.from_index cChunkSize index) (fun h => h.set_object obj) := by
  unfold allocate_index at h
  simp only [] at h
  split at h
  · cases h
  · rename_i hle
    split at h
    · simp only [IndexOutcome.returned.injEq] at h
      obtain ⟨hi, _, ht⟩ := h
      subst hi; subst ht
      exact ⟨rfl, Nat.not_lt.mp hle, rfl⟩
    · simp only [IndexOutcome.returned.injEq] at h
      obtain ⟨hi, _, ht⟩ := h
      subst hi; subst ht
      exact ⟨rfl, Nat.not_lt.mp hle, rfl⟩

theorem allocate_index_of_le (cChunkSize : Nat) (state : STATE) (t : Handles)
    (obj : ObjectPtr)
    (hle : (Allocator.allocate_index cChunkSize t.allocator_).1 ≤ UINT32_MAX) :
    ∃ state1 t1, allocate_index cChunkSize state t obj
      = IndexOutcome.returned (Allocator.allocate_index cChunkSize t.allocator_).1 state1 t1 := by
  have hng : ¬ (Allocator.allocate_index cChunkSize t.allocator_).1 > UINT32_MAX :=
    Nat.not_lt.mpr hle
  unfold allocate_index
  simp only [hng, if_false]
  split
  · exact ⟨_, _, rfl⟩
  · exact ⟨_, _, rfl⟩

/-- The step of a run of `allocate_index`: on a well-formed table with a
duplicate-free free list the index handed out is below the new slot count,
is either the top of the old free list or a slot of a new chunk, and is not
handed out again: it is neither on the new free list nor at or above the
new slot count. -/
theorem allocate_index_fresh (cChunkSize : Nat) (state : STATE) (t : Handles)
    (obj : ObjectPtr) (index : Nat) (state1 : STATE) (t1 : Handles)
    (hwf : t.allocator_.well_formed cChunkSize) (hnd : t.allocator_.free_list_.Nodup)
    (h : allocate_index cChunkSize state t obj = IndexOutcome.returned index state1 t1) :
    t1.allocator_.free_list_.Nodup ∧
      t.allocator_.chunks_.length ≤ t1.allocator_.chunks_.length ∧
      t1.allocator_.chunks_.length ≤ t.allocator_.chunks_.length + 1 ∧
      index < t1.allocator_.chunks_.length * cChunkSize ∧
      (index ∈ t.allocator_.free_list_ ∨ t.allocator_.chunks_.length * cChunkSize ≤ index) ∧
      index ∉ t1.allocator_.free_list_ ∧
      (∀ i ∈ t1.allocator_.free_list_,
        i ∈ t.allocator_.free_list_ ∨ t.allocator_.chunks_.length * cChunkSize ≤ i) := by
  obtain ⟨hi, _, ht⟩ := allocate_index_returned cChunkSize state t obj index state1 t1 h
  obtain ⟨hn, _, hfree⟩ := hwf
  have hfl : t1.allocator_.free_list_
      = (Allocator.allocate_index cChunkSize t.allocator_).2.2.free_list_ := by
    rw [ht]; rfl
  have hlen : t1.allocator_.chunks_.length
      = (Allocator.allocate_index cChunkSize t.allocator_).2.2.chunks_.length := by
    rw [ht, Allocator.update_length]
  rcases Allocator.allocate_index_cases cChunkSize t.allocator_ with
    ⟨rest, hold, hnew, hch⟩ | ⟨hold, hidx, hnew, hch⟩
  · rw [hnew] at hfl
    rw [hch] at hlen
    rw [← hi] at hold
    rw [hold] at hnd
    have hmem : index ∈ t.allocator_.free_list_ := by
      rw [hold]; exact List.mem_cons_self _ _
    have hlt := hfree index hmem
    rw [hfl, hlen]
    refine ⟨(List.nodup_cons.mp hnd).2, Nat.le_refl _, Nat.le_succ _, hlt, Or.inl hmem,
      (List.nodup_cons.mp hnd).1, ?_⟩
    intro i hi'
    left
    rw [hold]
    exact List.mem_cons_of_mem _ hi'
  · rw [hnew] at hfl
    rw [hch, List.length_append, List.length_singleton] at hlen
    rw [← hi] at hidx
    rw [hfl, hlen]
    have hexp : (t.allocator_.chunks_.length + 1) * cChunkSize
        = t.allocator_.chunks_.length * cChunkSize + cChunkSize := by
      rw [Nat.add_mul, Nat.one_mul]
    refine ⟨?_, Nat.le_succ _, Nat.le_refl _, ?_, ?_, ?_, ?_⟩
    · rw [List.nodup_reverse]
      apply List.Nodup.map
      · intro x y hxy
        simp only at hxy
        omega
      · exact List.nodup_range _
    · rw [hexp]; omega
    · right; omega
    · intro hmem
      simp only [List.mem_reverse, List.mem_map, List.mem_range] at hmem
      obtain ⟨j, hj, hji⟩ := hmem
      omega
    · intro i hi'
      simp only [List.mem_reverse, List.mem_map, List.mem_range] at hi'
      obtain ⟨j, _, hji⟩ := hi'
      right
      omega

end Handles

namespace Handles

theorem allocate_index_many_distinct (cChunkSize : Nat) (objs : List ObjectPtr) :
    ∀ (state : STATE) (t : Handles) (indices : List Nat) (state1 : STATE) (t1 : Handles),
      t.allocator_.well_formed cChunkSize → t.allocator_.free_list_.Nodup →
      allocate_index_many cChunkSize objs state t = some (indices, state1, t1) →
      indices.length = objs.length ∧ indices.Nodup ∧
        t.allocator_.chunks_.length ≤ t1.allocator_.chunks_.length ∧
        ∀ i ∈ indices,
          (i ∈ t.allocator_.free_list_ ∨ t.allocator_.chunks_.length * cChunkSize ≤ i) ∧
            i < t1.allocator_.chunks_.length * cChunkSize := by
  induction objs with
  | nil =>
    intro state t indices state1 t1 _ _ h
    simp only [allocate_index_many, Option.some.injEq, Prod.mk.injEq] at h
    obtain ⟨hi, _, ht⟩ := h
    subst hi; subst ht
    simp
  | cons obj rest ih =>
    intro state t indices state1 t1 hwf hnd h
    simp only [allocate_index_many] at h
    cases hout : allocate_index cChunkSize state t obj with
    | aborted s2 t2 => rw [hout] at h; cases h
    | returned index s2 t2 =>
      rw [hout] at h
      simp only [] at h
      cases hrun : allocate_index_many cChunkSize rest s2 t2 with
      | none => rw [hrun] at h; cases h
      | some rs =>
        obtain ⟨is2, s3, t3⟩ := rs
        rw [hrun] at h
        simp only [Option.some.injEq, Prod.mk.injEq] at h
        obtain ⟨hi, _, ht⟩ := h
        subst hi; subst ht
        obtain ⟨hnd2, hle1, _, hlt, horigin, hnot, hsub⟩ :=
          allocate_index_fresh cChunkSize state t obj index s2 t2 hwf hnd hout
        have hwf2 := well_formed_allocate_index cChunkSize state t obj index s2 t2 hwf hout
        obtain ⟨hlen, hnodup, hle2, hall⟩ := ih s2 t2 is2 s3 t3 hwf2 hnd2 hrun
        have hmul1 : t.allocator_.chunks_.length * cChunkSize
            ≤ t2.allocator_.chunks_.length * cChunkSize := Nat.mul_le_mul_right _ hle1
        have hmul2 : t2.allocator_.chunks_.length * cChunkSize
            ≤ t3.allocator_.chunks_.length * cChunkSize := Nat.mul_le_mul_right _ hle2
        refine ⟨by simp [hlen], ?_, Nat.le_trans hle1 hle2, ?_⟩
        · rw [List.nodup_cons]
          refine ⟨?_, hnodup⟩
          intro hmem
          rcases (hall index hmem).1 with hin | hge
          · exact hnot hin
          · omega
        · intro i hi
          rcases List.mem_cons.mp hi with hi | hi
          · subst hi
            exact ⟨horigin, by omega⟩
          · obtain ⟨hor, hb⟩ := hall i hi
            refine ⟨?_, hb⟩
            rcases hor with hin | hge
            · exact hsub i hin
            · right; omega

theorem allocate_index_many_returns (cChunkSize : Nat) (objs : List ObjectPtr) :
    ∀ (state : STATE) (t : Handles),
      t.allocator_.well_formed cChunkSize → t.allocator_.free_list_.Nodup →
      (t.allocator_.chunks_.length + objs.length) * cChunkSize ≤ UINT32_MAX + 1 →
      ∃ r, allocate_index_many cChunkSize objs state t = some r := by
  induction objs with
  | nil =>
    intro state t _ _ _
    exact ⟨_, rfl⟩
  | cons obj rest ih =>
    intro state t hwf hnd hcap
    have hexp : (t.allocator_.chunks_.length + (obj :: rest).length) * cChunkSize
        = (t.allocator_.chunks_.length + 1) * cChunkSize + rest.length * cChunkSize := by
      simp only [List.length_cons]
      simp only [Nat.add_mul]
      omega
    have hidx : (Allocator.allocate_index cChunkSize t.allocator_).1 ≤ UINT32_MAX := by
      have hone : (t.allocator_.chunks_.length + 1) * cChunkSize
          = t.allocator_.chunks_.length * cChunkSize + cChunkSize := by
        rw [Nat.add_mul, Nat.one_mul]
      rcases Allocator.allocate_index_cases cChunkSize t.allocator_ with
        ⟨r, hold, _, _⟩ | ⟨_, hi, _, _⟩
      · have := hwf.2.2 _ (by rw [hold]; exact List.mem_cons_self _ _)
        omega
      · have := hwf.1
        omega
    obtain ⟨s2, t2, hout⟩ := allocate_index_of_le cChunkSize state t obj hidx
    obtain ⟨hnd2, _, hle, _⟩ :=
      allocate_index_fresh cChunkSize state t obj _ s2 t2 hwf hnd hout
    have hwf2 := well_formed_allocate_index cChunkSize state t obj _ s2 t2 hwf hout
    have hcap2 : (t2.allocator_.chunks_.length + rest.length) * cChunkSize ≤ UINT32_MAX + 1 := by
      have h1 : t2.allocator_.chunks_.length * cChunkSize
          ≤ (t.allocator_.chunks_.length + 1) * cChunkSize := Nat.mul_le_mul_right _ hle
      rw [Nat.add_mul]
      omega
    obtain ⟨r, hr⟩ := ih s2 t2 hwf2 hnd2 hcap2
    refine ⟨((Allocator.allocate_index cChunkSize t.allocator_).1 :: r.1, r.2.1, r.2.2), ?_⟩
    simp only [allocate_index_many, hout, hr]

/-- C11. On a well-formed table whose free list has no duplicates, a run
of N consecutive `allocate_index` calls that all return hands out N
pairwise distinct stable indices, each strictly below (number of chunks
after the calls) times (chunk size).  The run does return whenever the
slots of the old chunks and of N further chunks fit the 32-bit index
range. -/
theorem allocate_index_distinct (cChunkSize : Nat) (objs : List ObjectPtr) (state : STATE)
    (t : Handles) (hwf : t.allocator_.well_formed cChunkSize)
    (hnd : t.allocator_.free_list_.Nodup) :
    (∀ (indices : List Nat) (state1 : STATE) (t1 : Handles),
        allocate_index_many cChunkSize objs state t = some (indices, state1, t1) →
          indices.length = objs.length ∧ indices.Nodup ∧
            ∀ i ∈ indices, i < t1.allocator_.chunks_.length * cChunkSize) ∧
      ((t.allocator_.chunks_.length + objs.length) * cChunkSize ≤ UINT32_MAX + 1 →
        ∃ r, allocate_index_many cChunkSize objs state t = some r) := by
  constructor
  · intro indices state1 t1 h
    obtain ⟨hlen, hnodup, _, hall⟩ :=
      allocate_index_many_distinct cChunkSize objs state t indices state1 t1 hwf hnd h
    exact ⟨hlen, hnodup, fun i hi => (hall i hi).2⟩
  · exact allocate_index_many_returns cChunkSize objs state t hwf hnd

end Handles

namespace Handles

/-- Witness of C11: three `allocate_index` calls on the table that owns no chunk, with
chunks of two slots return the distinct indices 1, 0 and 3, all below the
four slots of the two chunks then owned. -/
theorem allocate_index_distinct_witness :
    allocate_index_many 2 [some 1, some 2, some 3] ⟨0⟩ no_chunk_table
        = some ([1, 0, 3], ⟨2⟩, sample_index_run_table) ∧
      (([1, 0, 3] : List Nat).length = 3 ∧ ([1, 0, 3] : List Nat).Nodup ∧
        ∀ i ∈ ([1, 0, 3] : List Nat), i < 2 * 2) :=
  ⟨by decide,
   (allocate_index_distinct 2 [some 1, some 2, some 3] ⟨0⟩ no_chunk_table
      ⟨by decide, by simp [no_chunk_table], by simp [no_chunk_table]⟩ (by simp [no_chunk_table])).1
      [1, 0, 3] ⟨2⟩ sample_index_run_table (by decide)⟩

/-- C12, the code at the failing input. From a freshly constructed table
with chunks of two slots, on which the invariant holds: allocate a handle,
flag it weak, sweep in the young context.  The handle of slot (0,1) is
still in use, and its stable index 1 is on the free list: the slot is both
free-listed and in use.  The same calls break the invariant when run from
the table that owns no chunk. -/
theorem occupancy_broken_by_young_sweep :
    occupancy_ok 2 (new 2) = true ∧
      run_calls 2 8 sample_marked_p young_sweep_calls ⟨0⟩ (new 2)
        = some (⟨0⟩, young_sweep_table) ∧
      occupancy_ok 2 young_sweep_table = false ∧
      validate young_sweep_table ⟨0, 1⟩ = true ∧
      on_free_list 2 young_sweep_table ⟨0, 1⟩ = true ∧
      occupancy_ok 2 (allocate 2 ⟨0⟩ (new 2) (some 1)).2.2 = true ∧
      (run_calls 2 8 sample_marked_p young_sweep_calls ⟨0⟩ no_chunk_table).map
          (fun r => occupancy_ok 2 r.2) = some false ∧
      occupancy_ok 2 (allocate 2 ⟨0⟩ no_chunk_table (some 1)).2.2 = true := by
  decide

/-- C13, the code at the failing input. After the per-slot pass of a
young-context sweep of the sample table the occupancy map has one entry per
chunk and reads false for chunk 1, which holds the in-use weak handle of
slot (1,1). -/
theorem sweep_marks_miss_young_weak :
    sweep_marks sample_marked_p sample_table 1 true = [true, false] ∧
      (sweep_pass sample_marked_p sample_table 1 true).allocator_.chunks_.length = 2 ∧
      validate (sweep_pass sample_marked_p sample_table 1 true) ⟨1, 1⟩ = true := by
  decide

/-- C14, the code at the failing input. After a young-context sweep of the
sample table, with a slot size of 8, three slots are in use and `objects_`
reads 1, but `bytes_` reads 16: neither 3 times 8 nor 1 times 8. -/
theorem deallocate_handles_young_bytes :
    (deallocate_handles 2 8 sample_marked_p sample_table [] 1 true).1.diagnostic_.bytes_ = 16 ∧
      in_use_count
          (deallocate_handles 2 8 sample_marked_p sample_table [] 1 true).1.allocator_.chunks_
        = 3 ∧
      (deallocate_handles 2 8 sample_marked_p sample_table [] 1 true).1.diagnostic_.objects_
        = 1 ∧
      (deallocate_handles 2 8 sample_marked_p sample_table [] 1 true).1.allocator_.in_use_
        = 2 := by
  decide

/-- C16. On a freshly constructed table with chunks of four slots, five
`allocate` calls grow the table exactly once, on the fifth call: after one
to four calls the table still owns one chunk and `collections_` and the
number of requests read 0, after the fifth it owns two chunks and both read
1.  All five handles validate as in use on the final table, and all five
are strong. -/
theorem five_allocations_one_growth :
    ((new 4).allocator_.chunks_.length = 1 ∧ (new 4).diagnostic_.collections_ = 0) ∧
      ((allocate_many 4 [some 1] ⟨0⟩ (new 4)).2.2.allocator_.chunks_.length = 1 ∧
        (allocate_many 4 [some 1] ⟨0⟩ (new 4)).2.2.diagnostic_.collections_ = 0 ∧
        (allocate_many 4 [some 1] ⟨0⟩ (new 4)).2.1.full_collection_requests = 0) ∧
      ((allocate_many 4 [some 1, some 2, some 3, some 4] ⟨0⟩
          (new 4)).2.2.allocator_.chunks_.length = 1 ∧
        (allocate_many 4 [some 1, some 2, some 3, some 4] ⟨0⟩
          (new 4)).2.2.diagnostic_.collections_ = 0 ∧
        (allocate_many 4 [some 1, some 2, some 3, some 4] ⟨0⟩
          (new 4)).2.1.full_collection_requests = 0) ∧
      ((allocate_many 4 [some 1, some 2, some 3, some 4, some 5] ⟨0⟩
          (new 4)).2.2.allocator_.chunks_.length = 2 ∧
        (allocate_many 4 [some 1, some 2, some 3, some 4, some 5] ⟨0⟩
          (new 4)).2.2.diagnostic_.collections_ = 1 ∧
        (allocate_many 4 [some 1, some 2, some 3, some 4, some 5] ⟨0⟩
          (new 4)).2.1.full_collection_requests = 1) ∧
      (allocate_many 4 [some 1, some 2, some 3, some 4, some 5] ⟨0⟩ (new 4)).1
        = [⟨0, 3⟩, ⟨0, 2⟩, ⟨0, 1⟩, ⟨0, 0⟩, ⟨1, 3⟩] ∧
      (allocate_many 4 [some 1, some 2, some 3, some 4, some 5] ⟨0⟩ (new 4)).1.all
        (validate
          (allocate_many 4 [some 1, some 2, some 3, some 4, some 5] ⟨0⟩ (new 4)).2.2)
        = true ∧
      (allocate_many 4 [some 1, some 2, some 3, some 4, some 5] ⟨0⟩ (new 4)).1.all
        (fun handle =>
          !(deref (allocate_many 4 [some 1, some 2, some 3, some 4, some 5] ⟨0⟩
              (new 4)).2.2.allocator_ handle).weak_p)
        = true := by
  decide

/-- C17, the code at the failing input. A young-context sweep of the
sample table leaves slot (1,0) free, yet the next `allocate` returns slot
(1,1), which was in use after the sweep and held the weak handle on object
4; no chunk is appended and `collections_` is unchanged. -/
theorem allocate_after_young_sweep_takes_live_slot :
    (deallocate_handles 2 8 sample_marked_p sample_table [] 1 true).1.allocator_.slot? ⟨1, 0⟩
        = some Handle.free ∧
      validate (deallocate_handles 2 8 sample_marked_p sample_table [] 1 true).1 ⟨1, 1⟩ = true ∧
      (allocate 2 ⟨0⟩ (deallocate_handles 2 8 sample_marked_p sample_table [] 1 true).1
        (some 9)).1 = ⟨1, 1⟩ ∧
      (allocate 2 ⟨0⟩ (deallocate_handles 2 8 sample_marked_p sample_table [] 1 true).1
        (some 9)).2.2.allocator_.slot? ⟨1, 1⟩ = some ⟨true, false, some 9⟩ ∧
      (allocate 2 ⟨0⟩ (deallocate_handles 2 8 sample_marked_p sample_table [] 1 true).1
        (some 9)).2.2.allocator_.chunks_.length = 2 ∧
      (allocate 2 ⟨0⟩ (deallocate_handles 2 8 sample_marked_p sample_table [] 1 true).1
        (some 9)).2.2.diagnostic_.collections_ = 2 := by
  decide

end Handles

/-! ## The rebuilt free list -/

namespace Allocator

theorem rebuild_chunk_lower (cChunkSize i : Nat) (occupied : Bool) (hs : List Handle) (j : Nat) :
    ∀ index ∈ (rebuild_chunk cChunkSize i occupied hs j).1, i * cChunkSize + j ≤ index := by
  induction hs generalizing j with
  | nil => intro index hi; simp [rebuild_chunk] at hi
  | cons h rest ih =>
    intro index hi
    simp only [rebuild_chunk] at hi
    split at hi
    · simp only [List.mem_cons] at hi
      rcases hi with hi | hi
      · omega
      · have := ih (j + 1) index hi
        omega
    · have := ih (j + 1) index hi
      omega

theorem rebuild_chunk_sorted (cChunkSize i : Nat) (occupied : Bool) (hs : List Handle) (j : Nat) :
    (rebuild_chunk cChunkSize i occupied hs j).1.Pairwise (fun x y => x < y) := by
  induction hs generalizing j with
  | nil => simp [rebuild_chunk]
  | cons h rest ih =>
    simp only [rebuild_chunk]
    split
    · simp only [List.pairwise_cons]
      refine ⟨?_, ih (j + 1)⟩
      intro y hy
      have := rebuild_chunk_lower cChunkSize i occupied rest (j + 1) y hy
      omega
    · exact ih (j + 1)

theorem rebuild_chunks_lower (cChunkSize : Nat) (chunk_marks : List Bool)
    (cs : List (List Handle)) (i : Nat) :
    ∀ index ∈ (rebuild_chunks cChunkSize chunk_marks cs i).1, i * cChunkSize ≤ index := by
  induction cs generalizing i with
  | nil => intro index hi; simp [rebuild_chunks] at hi
  | cons c rest ih =>
    intro index hi
    simp only [rebuild_chunks, List.mem_append] at hi
    rcases hi with hi | hi
    · have := rebuild_chunk_lower cChunkSize i _ c 0 index hi
      omega
    · have := ih (i + 1) index hi
      rw [Nat.add_mul, Nat.one_mul] at this
      omega

theorem rebuild_chunks_sorted (cChunkSize : Nat) (chunk_marks : List Bool)
    (cs : List (List Handle)) (i : Nat) (hlen : ∀ c ∈ cs, c.length = cChunkSize) :
    (rebuild_chunks cChunkSize chunk_marks cs i).1.Pairwise (fun x y => x < y) := by
  induction cs generalizing i with
  | nil => simp [rebuild_chunks]
  | cons c rest ih =>
    simp only [rebuild_chunks]
    rw [List.pairwise_append]
    refine ⟨rebuild_chunk_sorted cChunkSize i _ c 0,
      ih (i + 1) (fun c' hc' => hlen c' (List.mem_cons_of_mem _ hc')), ?_⟩
    intro x hx y hy
    have hxb := rebuild_chunk_bound cChunkSize i _ c 0 x hx
    rw [hlen c (List.mem_cons_self _ _)] at hxb
    have hyb := rebuild_chunks_lower cChunkSize chunk_marks rest (i + 1) y hy
    rw [Nat.add_mul, Nat.one_mul] at hyb
    omega

theorem rebuild_freelist_nodup (cChunkSize : Nat) (a : Allocator) (chunk_marks : List Bool)
    (hlen : ∀ c ∈ a.chunks_, c.length = cChunkSize) :
    (rebuild_freelist cChunkSize a chunk_marks).free_list_.Nodup := by
  simp only [rebuild_freelist, List.nodup_reverse]
  have hs := rebuild_chunks_sorted cChunkSize chunk_marks a.chunks_ 0 hlen
  exact hs.imp (fun hxy => Nat.ne_of_lt hxy)

end Allocator

namespace Handles

/-- The free list has no duplicates after a sweep of a well-formed table. -/
theorem nodup_deallocate_handles (cChunkSize sizeofHandle : Nat)
    (marked_p : ObjectPtr → Nat → Bool) (t : Handles) (cached : List HandlePtr)
    (mark : Nat) (young : Bool) (hwf : t.allocator_.well_formed cChunkSize) :
    (deallocate_handles cChunkSize sizeofHandle marked_p t cached mark
      young).1.allocator_.free_list_.Nodup := by
  simp only [deallocate_handles]
  apply Allocator.rebuild_freelist_nodup
  intro c hc
  rw [sweep_pass_chunks] at hc
  simp only [List.mem_map] at hc
  obtain ⟨c0, hc0, hcc⟩ := hc
  rw [← hcc, List.length_map]
  exact hwf.2.1 c0 hc0

/-- The free list has no duplicates after an `allocate` on a well-formed
table whose free list had none. -/
theorem nodup_allocate (cChunkSize : Nat) (state : STATE) (t : Handles) (obj : ObjectPtr)
    (hnd : t.allocator_.free_list_.Nodup) :
    (allocate cChunkSize state t obj).2.2.allocator_.free_list_.Nodup := by
  have hfl : (allocate cChunkSize state t obj).2.2.allocator_.free_list_
      = (Allocator.allocate_index cChunkSize t.allocator_).2.2.free_list_ := by
    unfold allocate Allocator.allocate
    simp only []
    split <;> rfl
  rw [hfl]
  rcases Allocator.allocate_index_cases cChunkSize t.allocator_ with
    ⟨rest, hold, hnew, _⟩ | ⟨_, _, hnew, _⟩
  · rw [hnew]
    rw [hold] at hnd
    exact (List.nodup_cons.mp hnd).2
  · rw [hnew, List.nodup_reverse]
    apply List.Nodup.map
    · intro x y hxy
      simp only at hxy
      omega
    · exact List.nodup_range _

end Handles

/-! ## The sweep in the mature context -/

theorem getD_append_cons_length {α : Type} (l : List α) (x : α) (r : List α) (d : α) :
    (l ++ x :: r).getD l.length d = x := by
  induction l with
  | nil => rfl
  | cons a as ih => simpa using ih

namespace Allocator

theorem rebuild_chunk_count (cChunkSize i : Nat) (occupied : Bool) (hs : List Handle) (j : Nat) :
    (rebuild_chunk cChunkSize i occupied hs j).2
      = if occupied then hs.countP (fun h => h.in_use_p) else 0 := by
  induction hs generalizing j with
  | nil => simp [rebuild_chunk]
  | cons h rest ih =>
    simp only [rebuild_chunk, List.countP_cons]
    cases occupied <;> cases hu : h.in_use_p <;> simp [ih (j + 1)]

theorem rebuild_chunks_count (cChunkSize : Nat) (g : List Handle → Bool)
    (cs : List (List Handle)) :
    ∀ lead : List Bool,
      (rebuild_chunks cChunkSize (lead ++ cs.map g) cs lead.length).2
        = (cs.map (fun c => if g c then c.countP (fun h => h.in_use_p) else 0)).sum := by
  induction cs with
  | nil => intro lead; simp [rebuild_chunks]
  | cons c rest ih =>
    intro lead
    simp only [rebuild_chunks, List.map_cons, List.sum_cons, getD_append_cons_length,
      rebuild_chunk_count]
    have h := ih (lead ++ [g c])
    simp only [List.length_append, List.length_singleton, List.append_assoc,
      List.singleton_append] at h
    rw [h]

end Allocator

namespace Handles

theorem counted_mature_eq (marked_p : ObjectPtr → Nat → Bool) (mark : Nat) (h : Handle) :
    counted marked_p mark false h = (swept marked_p mark false h).in_use_p := by
  simp only [counted, swept, Handle.in_use_p]
  cases hm : marked_p h.object mark <;> cases hu : h.in_use <;> cases hw : h.weak <;>
    simp [hu, Handle.clear]

theorem any_counted_swept (marked_p : ObjectPtr → Nat → Bool) (mark : Nat) (young : Bool)
    (cs : List (List Handle)) :
    (cs.map (List.map (swept marked_p mark young))).map
        (fun c => c.any (counted marked_p mark young))
      = cs.map (fun c => c.any (counted marked_p mark young)) := by
  simp only [List.map_map]
  apply List.map_congr_left
  intro c _
  simp only [Function.comp, List.any_map]
  congr 1
  funext h
  exact counted_swept marked_p mark young h

/-- In the mature context the occupancy map is exact: the entry of a chunk
is true if and only if the chunk holds a slot that is in use after the
per-slot pass. -/
theorem sweep_marks_mature (marked_p : ObjectPtr → Nat → Bool) (t : Handles) (mark : Nat) :
    sweep_marks marked_p t mark false
      = (sweep_pass marked_p t mark false).allocator_.chunks_.map
          (fun c => c.any (fun h => h.in_use_p)) := by
  rw [sweep_pass_chunks]
  simp only [sweep_marks, sweep_chunks_eq, List.map_map]
  apply List.map_congr_left
  intro c _
  simp only [Function.comp, List.any_map]
  congr 1
  funext h
  exact counted_mature_eq marked_p mark h

/-- In every context the occupancy map has one entry per chunk. -/
theorem sweep_marks_length (marked_p : ObjectPtr → Nat → Bool) (t : Handles) (mark : Nat)
    (young : Bool) :
    (sweep_marks marked_p t mark young).length = t.allocator_.chunks_.length := by
  simp [sweep_marks, sweep_chunks_eq]

/-- In the mature context the allocator's in-use count, `objects_` and
`bytes_` agree after the sweep: the count is the number of slots in use,
and `bytes_` is that number times the slot size. -/
theorem deallocate_handles_bytes_mature (cChunkSize sizeofHandle : Nat)
    (marked_p : ObjectPtr → Nat → Bool) (t : Handles) (cached : List HandlePtr) (mark : Nat) :
    (deallocate_handles cChunkSize sizeofHandle marked_p t cached mark false).1.allocator_.in_use_
        = in_use_count
            (deallocate_handles cChunkSize sizeofHandle marked_p t cached mark
              false).1.allocator_.chunks_ ∧
      (deallocate_handles cChunkSize sizeofHandle marked_p t cached mark
          false).1.diagnostic_.bytes_
        = in_use_count
            (deallocate_handles cChunkSize sizeofHandle marked_p t cached mark
              false).1.allocator_.chunks_ * sizeofHandle ∧
      (deallocate_handles cChunkSize sizeofHandle marked_p t cached mark
          false).1.diagnostic_.bytes_
        = (deallocate_handles cChunkSize sizeofHandle marked_p t cached mark
            false).1.diagnostic_.objects_ * sizeofHandle := by
  have hcount : (deallocate_handles cChunkSize sizeofHandle marked_p t cached mark
      false).1.allocator_.in_use_
        = in_use_count
            (deallocate_handles cChunkSize sizeofHandle marked_p t cached mark
              false).1.allocator_.chunks_ := by
    rw [deallocate_handles_eq]
    simp only [in_use_count]
    rw [← any_counted_swept marked_p mark false t.allocator_.chunks_]
    have h := Allocator.rebuild_chunks_count cChunkSize
      (fun c => c.any (counted marked_p mark false))
      (t.allocator_.chunks_.map (List.map (swept marked_p mark false))) []
    simp only [List.nil_append, List.length_nil] at h
    rw [h]
    congr 1
    apply List.map_congr_left
    intro c hc
    simp only [List.mem_map] at hc
    obtain ⟨c0, _, hcc⟩ := hc
    subst hcc
    split
    · rfl
    · rename_i hany
      simp only [List.any_map, Bool.not_eq_true, List.any_eq_false, Function.comp] at hany
      symm
      rw [List.countP_eq_zero]
      intro h hh
      simp only [List.mem_map] at hh
      obtain ⟨h0, hh0, hhh⟩ := hh
      subst hhh
      have := hany h0 hh0
      rw [counted_swept, counted_mature_eq] at this
      simpa using this
  have hobj := deallocate_handles_objects_mature cChunkSize sizeofHandle marked_p t cached mark
  have hbytes : (deallocate_handles cChunkSize sizeofHandle marked_p t cached mark
      false).1.diagnostic_.bytes_
        = (deallocate_handles cChunkSize sizeofHandle marked_p t cached mark
            false).1.allocator_.in_use_ * sizeofHandle := by
    simp [deallocate_handles]
  refine ⟨hcount, ?_, ?_⟩
  · rw [hbytes, hcount]
  · rw [hbytes, hcount, hobj]

end Handles

/-! ## Recycling after a mature sweep -/

namespace Allocator

theorem rebuild_chunk_mem (cChunkSize i : Nat) (occupied : Bool) (hs : List Handle) (j : Nat)
    (index : Nat) :
    index ∈ (rebuild_chunk cChunkSize i occupied hs j).1 ↔
      ∃ k h, hs.get? k = some h ∧ index = i * cChunkSize + (j + k) ∧
        (occupied = false ∨ h.in_use_p = false) := by
  induction hs generalizing j with
  | nil => simp [rebuild_chunk]
  | cons a rest ih =>
    simp only [rebuild_chunk]
    constructor
    · intro hi
      split at hi
      · rename_i hc
        simp only [List.mem_cons] at hi
        rcases hi with hi | hi
        · refine ⟨0, a, rfl, by omega, ?_⟩
          simpa using hc
        · obtain ⟨k, h, hk, hidx, hcond⟩ := (ih (j + 1)).mp hi
          exact ⟨k + 1, h, by simpa using hk, by omega, hcond⟩
      · obtain ⟨k, h, hk, hidx, hcond⟩ := (ih (j + 1)).mp hi
        exact ⟨k + 1, h, by simpa using hk, by omega, hcond⟩
    · rintro ⟨k, h, hk, hidx, hcond⟩
      cases k with
      | zero =>
        simp only [List.get?_cons_zero, Option.some.injEq] at hk
        subst hk
        have hc : (!occupied || !a.in_use_p) = true := by
          rcases hcond with ho | hu
          · simp [ho]
          · simp [hu]
        rw [if_pos hc]
        simp only [List.mem_cons]
        left
        omega
      | succ k =>
        have hrest : index ∈ (rebuild_chunk cChunkSize i occupied rest (j + 1)).1 :=
          (ih (j + 1)).mpr ⟨k, h, by simpa using hk, by omega, hcond⟩
        split
        · exact List.mem_cons_of_mem _ hrest
        · exact hrest

theorem rebuild_chunks_mem (cChunkSize : Nat) (g : List Handle → Bool)
    (cs : List (List Handle)) (index : Nat) :
    ∀ lead : List Bool,
      index ∈ (rebuild_chunks cChunkSize (lead ++ cs.map g) cs lead.length).1 ↔
        ∃ m c k h, cs.get? m = some c ∧ c.get? k = some h ∧
          index = (lead.length + m) * cChunkSize + k ∧
          (g c = false ∨ h.in_use_p = false) := by
  induction cs with
  | nil => intro lead; simp [rebuild_chunks]
  | cons c rest ih =>
    intro lead
    simp only [rebuild_chunks, List.map_cons, getD_append_cons_length, List.mem_append,
      rebuild_chunk_mem]
    have h := ih (lead ++ [g c])
    simp only [List.length_append, List.length_singleton, List.append_assoc,
      List.singleton_append] at h
    rw [h]
    constructor
    · rintro (⟨k, hd, hk, hidx, hcond⟩ | ⟨m, c1, k, hd, hm, hk, hidx, hcond⟩)
      · exact ⟨0, c, k, hd, rfl, hk, by simpa using hidx, hcond⟩
      · refine ⟨m + 1, c1, k, hd, by simpa using hm, hk, ?_, hcond⟩
        rw [hidx]
        simp only [Nat.add_mul]
        omega
    · rintro ⟨m, c1, k, hd, hm, hk, hidx, hcond⟩
      cases m with
      | zero =>
        simp only [List.get?_cons_zero, Option.some.injEq] at hm
        subst hm
        left
        exact ⟨k, hd, hk, by simpa using hidx, hcond⟩
      | succ m =>
        right
        refine ⟨m, c1, k, hd, by simpa using hm, hk, ?_, hcond⟩
        rw [hidx]
        simp only [Nat.add_mul]
        omega

end Allocator

namespace Handles

theorem free_list_mem_deallocate (cChunkSize sizeofHandle : Nat)
    (marked_p : ObjectPtr → Nat → Bool) (t : Handles) (cached : List HandlePtr)
    (mark : Nat) (young : Bool) (index : Nat) :
    index ∈ (deallocate_handles cChunkSize sizeofHandle marked_p t cached mark
        young).1.allocator_.free_list_ ↔
      ∃ m c k h,
        (t.allocator_.chunks_.map (List.map (swept marked_p mark young))).get? m = some c ∧
          c.get? k = some h ∧ index = m * cChunkSize + k ∧
          (c.any (counted marked_p mark young) = false ∨ h.in_use_p = false) := by
  rw [deallocate_handles_eq]
  simp only [List.mem_reverse]
  rw [← any_counted_swept marked_p mark young t.allocator_.chunks_]
  have h := Allocator.rebuild_chunks_mem cChunkSize
    (fun c => c.any (counted marked_p mark young))
    (t.allocator_.chunks_.map (List.map (swept marked_p mark young))) index []
  simp only [List.nil_append, List.length_nil, Nat.zero_add] at h
  exact h

theorem from_index_of_lt (cChunkSize m k : Nat) (hk : k < cChunkSize) :
    Allocator.from_index cChunkSize (m * cChunkSize + k) = ⟨m, k⟩ := by
  unfold Allocator.from_index
  have hn : 0 < cChunkSize := by omega
  have hdiv : (m * cChunkSize + k) / cChunkSize = m := by
    rw [Nat.mul_comm, Nat.mul_add_div hn, Nat.div_eq_of_lt hk]
    rfl
  have hmod : (m * cChunkSize + k) % cChunkSize = k := by
    rw [Nat.mul_comm, Nat.mul_add_mod, Nat.mod_eq_of_lt hk]
  rw [hdiv, hmod]

/-- After a mature sweep of a well-formed table every entry of the free
list is the stable index of a slot that is free. -/
theorem free_list_free_after_mature_sweep (cChunkSize sizeofHandle : Nat)
    (marked_p : ObjectPtr → Nat → Bool) (t : Handles) (cached : List HandlePtr)
    (mark : Nat) (hwf : t.allocator_.well_formed cChunkSize) (index : Nat)
    (hmem : index ∈ (deallocate_handles cChunkSize sizeofHandle marked_p t cached mark
        false).1.allocator_.free_list_) :
    ∃ h, (deallocate_handles cChunkSize sizeofHandle marked_p t cached mark
          false).1.allocator_.slot? (Allocator.from_index cChunkSize index) = some h ∧
      h.in_use_p = false := by
  obtain ⟨m, c, k, h, hm, hk, hidx, hcond⟩ :=
    (free_list_mem_deallocate cChunkSize sizeofHandle marked_p t cached mark false index).mp hmem
  have hwf2 := well_formed_deallocate_handles cChunkSize sizeofHandle marked_p t cached mark
    false hwf
  rw [← deallocate_chunks cChunkSize sizeofHandle marked_p t cached mark false] at hm
  have hcmem : c ∈ (deallocate_handles cChunkSize sizeofHandle marked_p t cached mark
      false).1.allocator_.chunks_ := List.get?_mem hm
  have hclen : c.length = cChunkSize := hwf2.2.1 c hcmem
  have hklt : k < cChunkSize := by
    rw [← hclen]
    rw [List.get?_eq_some] at hk
    exact hk.1
  refine ⟨h, ?_, ?_⟩
  · rw [hidx, from_index_of_lt cChunkSize m k hklt]
    unfold Allocator.slot?
    simp only [hm, Option.some_bind, hk]
  · rcases hcond with hany | hu
    · rw [deallocate_chunks] at hcmem
      simp only [List.mem_map] at hcmem
      obtain ⟨c0, _, hcc⟩ := hcmem
      subst hcc
      have hh : h ∈ c0.map (swept marked_p mark false) := List.get?_mem hk
      simp only [List.mem_map] at hh
      obtain ⟨h0, hh0, hhh⟩ := hh
      subst hhh
      simp only [List.any_map, List.any_eq_false, Function.comp] at hany
      have := hany h0 hh0
      rw [counted_swept, counted_mature_eq] at this
      simpa using this
    · exact hu

/-- After a mature sweep of a well-formed table that leaves a slot free,
the next `allocate` returns a slot that was free after the sweep, appends
no chunk, and leaves `collections_` and the number of requests as they
were. -/
theorem allocate_recycles_after_mature_sweep (cChunkSize sizeofHandle : Nat)
    (marked_p : ObjectPtr → Nat → Bool) (t : Handles) (cached : List HandlePtr)
    (mark : Nat) (state : STATE) (obj : ObjectPtr)
    (hwf : t.allocator_.well_formed cChunkSize) (p : HandlePtr) (h : Handle)
    (hslot : (deallocate_handles cChunkSize sizeofHandle marked_p t cached mark
        false).1.allocator_.slot? p = some h)
    (hfree : h.in_use_p = false) :
    (∃ h0, (deallocate_handles cChunkSize sizeofHandle marked_p t cached mark
          false).1.allocator_.slot?
            (allocate cChunkSize state
              (deallocate_handles cChunkSize sizeofHandle marked_p t cached mark false).1
              obj).1 = some h0 ∧ h0.in_use_p = false) ∧
      (allocate cChunkSize state
          (deallocate_handles cChunkSize sizeofHandle marked_p t cached mark false).1
          obj).2.2.allocator_.chunks_.length
        = (deallocate_handles cChunkSize sizeofHandle marked_p t cached mark
            false).1.allocator_.chunks_.length ∧
      (allocate cChunkSize state
          (deallocate_handles cChunkSize sizeofHandle marked_p t cached mark false).1
          obj).2.2.diagnostic_.collections_
        = (deallocate_handles cChunkSize sizeofHandle marked_p t cached mark
            false).1.diagnostic_.collections_ ∧
      (allocate cChunkSize state
          (deallocate_handles cChunkSize sizeofHandle marked_p t cached mark false).1
          obj).2.1.full_collection_requests = state.full_collection_requests := by
  have hp : p.chunk * cChunkSize + p.offset ∈
      (deallocate_handles cChunkSize sizeofHandle marked_p t cached mark
        false).1.allocator_.free_list_ := by
    rw [free_list_mem_deallocate]
    unfold Allocator.slot? at hslot
    rw [deallocate_chunks] at hslot
    cases hc : (t.allocator_.chunks_.map (List.map (swept marked_p mark false))).get? p.chunk with
    | none => rw [hc] at hslot; cases hslot
    | some c =>
      rw [hc, Option.some_bind] at hslot
      exact ⟨p.chunk, c, p.offset, h, hc, hslot, rfl, Or.inr hfree⟩
  have hne : (deallocate_handles cChunkSize sizeofHandle marked_p t cached mark
      false).1.allocator_.free_list_ ≠ [] := by
    intro hnil
    rw [hnil] at hp
    cases hp
  have hstep := allocate_step cChunkSize state
    (deallocate_handles cChunkSize sizeofHandle marked_p t cached mark false).1 obj
  rcases hstep with ⟨hnil, _⟩ | ⟨_, hlen, hcoll, hreq⟩
  · exact absurd hnil hne
  · refine ⟨?_, hlen, hcoll, hreq⟩
    have hret : (allocate cChunkSize state
        (deallocate_handles cChunkSize sizeofHandle marked_p t cached mark false).1 obj).1
        = Allocator.from_index cChunkSize
            (Allocator.allocate_index cChunkSize
              (deallocate_handles cChunkSize sizeofHandle marked_p t cached mark
                false).1.allocator_).1 := by
      unfold allocate Allocator.allocate
      simp only []
      split <;> rfl
    rw [hret]
    apply free_list_free_after_mature_sweep cChunkSize sizeofHandle marked_p t cached mark hwf
    rcases Allocator.allocate_index_cases cChunkSize
        (deallocate_handles cChunkSize sizeofHandle marked_p t cached mark
          false).1.allocator_ with ⟨rest, hold, _, _⟩ | ⟨hnil, _⟩
    · rw [hold]
      exact List.mem_cons_self _ _
    · exact absurd hnil hne

end Handles

/-! ## The occupancy invariant along mature sweeps -/

namespace Allocator

theorem slot?_bounds (cChunkSize : Nat) (a : Allocator) (hwf : a.well_formed cChunkSize)
    (p : HandlePtr) (h : Handle) (hs : a.slot? p = some h) :
    p.chunk < a.chunks_.length ∧ p.offset < cChunkSize := by
  unfold slot? at hs
  cases hc : a.chunks_.get? p.chunk with
  | none => rw [hc] at hs; cases hs
  | some c =>
    rw [hc, Option.some_bind] at hs
    have h1 := (List.get?_eq_some.mp hc).1
    have h2 := (List.get?_eq_some.mp hs).1
    rw [hwf.2.1 c (List.get?_mem hc)] at h2
    exact ⟨h1, h2⟩

theorem index_lt_of_bounds (cChunkSize len c k : Nat) (hc : c < len) (hk : k < cChunkSize) :
    c * cChunkSize + k < len * cChunkSize := by
  have h1 : (c + 1) * cChunkSize ≤ len * cChunkSize := Nat.mul_le_mul_right _ hc
  rw [Nat.add_mul, Nat.one_mul] at h1
  omega

theorem index_of_from_index (cChunkSize index : Nat) :
    (from_index cChunkSize index).chunk * cChunkSize + (from_index cChunkSize index).offset
      = index := by
  simp only [from_index]
  rw [Nat.mul_comm]
  exact Nat.div_add_mod index cChunkSize

end Allocator

namespace Allocator

theorem occupancy_update_same_use (cChunkSize : Nat) (a : Allocator) (p : HandlePtr)
    (f : Handle → Handle) (hf : ∀ h, (f h).in_use_p = h.in_use_p)
    (hocc : a.occupancy cChunkSize) : (a.update p f).occupancy cChunkSize := by
  intro q h hs
  rw [update_free_list]
  by_cases hq : q = p
  · subst hq
    rw [slot?_update_same] at hs
    cases hb : a.slot? q with
    | none => rw [hb] at hs; cases hs
    | some h0 =>
      rw [hb, Option.map_some', Option.some.injEq] at hs
      rw [← hs, hf]
      exact hocc q h0 hb
  · rw [slot?_update_other a p q f hq] at hs
    exact hocc q h hs

theorem occupancy_allocate (cChunkSize : Nat) (a : Allocator) (obj : ObjectPtr)
    (hwf : a.well_formed cChunkSize) (hnd : a.free_list_.Nodup)
    (hocc : a.occupancy cChunkSize) :
    (update (allocate_index cChunkSize a).2.2
      (from_index cChunkSize (allocate_index cChunkSize a).1)
      (fun h => h.set_object obj)).occupancy cChunkSize := by
  have hwf1 := well_formed_pop_or_grow cChunkSize a hwf
  intro q h hs
  rw [update_free_list]
  by_cases hq : q = from_index cChunkSize (allocate_index cChunkSize a).1
  · -- the slot handed out: in use and off the free list
    rw [hq, slot?_update_same] at hs
    have huse : h.in_use_p = true := by
      cases hb : (allocate_index cChunkSize a).2.2.slot?
          (from_index cChunkSize (allocate_index cChunkSize a).1) with
      | none => rw [hb] at hs; cases hs
      | some h0 =>
        rw [hb, Option.map_some', Option.some.injEq] at hs
        rw [← hs]
        rfl
    rw [hq, index_of_from_index, huse]
    constructor
    · intro hmem
      exfalso
      rcases allocate_index_cases cChunkSize a with ⟨rest, hold, hnew, _⟩ | ⟨_, hidx, hnew, _⟩
      · rw [hnew] at hmem
        rw [hold] at hnd
        exact (List.nodup_cons.mp hnd).1 hmem
      · rw [hnew] at hmem
        simp only [List.mem_reverse, List.mem_map, List.mem_range] at hmem
        obtain ⟨j, hj, hji⟩ := hmem
        have := hwf.1
        omega
    · intro hc; cases hc
  · rw [slot?_update_other _ _ q _ hq] at hs
    obtain ⟨hqc, hqo⟩ := slot?_bounds cChunkSize _ hwf1 q h hs
    have hne : q.chunk * cChunkSize + q.offset ≠ (allocate_index cChunkSize a).1 := by
      intro heq
      apply hq
      rw [← heq]
      exact (Handles.from_index_of_lt cChunkSize q.chunk q.offset hqo).symm
    rcases allocate_index_cases cChunkSize a with
      ⟨rest, hold, hnew, hch⟩ | ⟨hold, hidx, hnew, hch⟩
    · -- a popped entry: every other slot is as before
      have hsold : a.slot? q = some h := by
        unfold slot? at hs ⊢
        rw [hch] at hs
        exact hs
      rw [hnew, ← hocc q h hsold, hold]
      simp only [List.mem_cons]
      constructor
      · intro hm; exact Or.inr hm
      · rintro (hm | hm)
        · exact absurd hm hne
        · exact hm
    · -- a new chunk: old slots are in use, the other new slots are free
      rw [hnew]
      unfold slot? at hs
      rw [hch] at hs
      by_cases hold_chunk : q.chunk < a.chunks_.length
      · have hsold : a.slot? q = some h := by
          unfold slot?
          simp only [List.get?_eq_getElem?] at hs ⊢
          rw [List.getElem?_append_left hold_chunk] at hs
          exact hs
        have huse : ¬ h.in_use_p = false := by
          intro hfree
          have := (hocc q h hsold).mpr hfree
          rw [hold] at this
          cases this
        have hlt := index_lt_of_bounds cChunkSize _ q.chunk q.offset hold_chunk hqo
        constructor
        · intro hmem
          simp only [List.mem_reverse, List.mem_map, List.mem_range] at hmem
          obtain ⟨j, _, hji⟩ := hmem
          omega
        · intro hfree; exact absurd hfree huse
      · have hlen : (allocate_index cChunkSize a).2.2.chunks_.length
            = a.chunks_.length + 1 := by
          rw [hch, List.length_append, List.length_singleton]
        have hqeq : q.chunk = a.chunks_.length := by omega
        simp only [List.get?_eq_getElem?] at hs
        rw [hqeq, List.getElem?_append_right (Nat.le_refl _)] at hs
        simp only [Nat.sub_self, List.getElem?_cons_zero, Option.some_bind] at hs
        rw [List.getElem?_replicate, if_pos hqo, Option.some.injEq] at hs
        rw [← hs]
        constructor
        · intro _; rfl
        · intro _
          simp only [List.mem_reverse, List.mem_map, List.mem_range]
          refine ⟨q.offset, ?_, by rw [hqeq]⟩
          rw [hqeq] at hne
          omega

end Allocator

namespace Handles

theorem occupancy_deallocate_mature (cChunkSize sizeofHandle : Nat)
    (marked_p : ObjectPtr → Nat → Bool) (t : Handles) (cached : List HandlePtr)
    (mark : Nat) (hwf : t.allocator_.well_formed cChunkSize) :
    (deallocate_handles cChunkSize sizeofHandle marked_p t cached mark
      false).1.allocator_.occupancy cChunkSize := by
  have hwf2 := well_formed_deallocate_handles cChunkSize sizeofHandle marked_p t cached mark
    false hwf
  intro q h hs
  obtain ⟨_, hqo⟩ := Allocator.slot?_bounds cChunkSize _ hwf2 q h hs
  constructor
  · intro hmem
    obtain ⟨h1, hs1, hfree⟩ :=
      free_list_free_after_mature_sweep cChunkSize sizeofHandle marked_p t cached mark hwf _ hmem
    rw [from_index_of_lt cChunkSize q.chunk q.offset hqo] at hs1
    rw [hs] at hs1
    rw [Option.some.injEq] at hs1
    rw [hs1]
    exact hfree
  · intro hfree
    rw [free_list_mem_deallocate]
    unfold Allocator.slot? at hs
    rw [deallocate_chunks] at hs
    cases hc : (t.allocator_.chunks_.map (List.map (swept marked_p mark false))).get? q.chunk with
    | none => rw [hc] at hs; cases hs
    | some c =>
      rw [hc, Option.some_bind] at hs
      exact ⟨q.chunk, c, q.offset, h, hc, hs, rfl, Or.inr hfree⟩

theorem allocate_allocator (cChunkSize : Nat) (state : STATE) (t : Handles) (obj : ObjectPtr) :
    (allocate cChunkSize state t obj).2.2.allocator_ =
      Allocator.update (Allocator.allocate_index cChunkSize t.allocator_).2.2
        (Allocator.from_index cChunkSize (Allocator.allocate_index cChunkSize t.allocator_).1)
        (fun h => h.set_object obj) := by
  unfold allocate Allocator.allocate
  simp only []
  split <;> rfl

/-- Along every run of calls whose sweeps are all in the mature context,
the table stays well formed, its free list stays free of duplicates, and
every slot is on the free list if and only if it is not in use. -/
theorem occupancy_along_mature_runs (cChunkSize sizeofHandle : Nat)
    (marked_p : ObjectPtr → Nat → Bool) (calls : List TableCall) :
    ∀ (state : STATE) (t : Handles) (state1 : STATE) (t1 : Handles),
      mature_only calls = true →
      t.allocator_.well_formed cChunkSize → t.allocator_.free_list_.Nodup →
      t.allocator_.occupancy cChunkSize →
      run_calls cChunkSize sizeofHandle marked_p calls state t = some (state1, t1) →
      t1.allocator_.well_formed cChunkSize ∧ t1.allocator_.free_list_.Nodup ∧
        t1.allocator_.occupancy cChunkSize := by
  induction calls with
  | nil =>
    intro state t state1 t1 _ hwf hnd hocc h
    simp only [run_calls, Option.some.injEq, Prod.mk.injEq] at h
    obtain ⟨_, ht⟩ := h
    subst ht
    exact ⟨hwf, hnd, hocc⟩
  | cons call rest ih =>
    intro state t state1 t1 hm hwf hnd hocc h
    cases call with
    | allocate obj =>
      simp only [mature_only] at hm
      simp only [run_calls] at h
      refine ih _ _ _ _ hm (well_formed_allocate cChunkSize state t obj hwf)
        (nodup_allocate cChunkSize state t obj hnd) ?_ h
      rw [allocate_allocator]
      exact Allocator.occupancy_allocate cChunkSize t.allocator_ obj hwf hnd hocc
    | allocate_index obj =>
      simp only [mature_only] at hm
      simp only [run_calls] at h
      cases hout : allocate_index cChunkSize state t obj with
      | aborted s2 t2 => rw [hout] at h; cases h
      | returned index s2 t2 =>
        rw [hout] at h
        simp only [] at h
        obtain ⟨hi, _, ht⟩ := allocate_index_returned cChunkSize state t obj index s2 t2 hout
        refine ih _ _ _ _ hm
          (well_formed_allocate_index cChunkSize state t obj index s2 t2 hwf hout)
          (allocate_index_fresh cChunkSize state t obj index s2 t2 hwf hnd hout).1 ?_ h
        rw [ht, hi]
        exact Allocator.occupancy_allocate cChunkSize t.allocator_ obj hwf hnd hocc
    | flag_weak handle =>
      simp only [mature_only] at hm
      simp only [run_calls] at h
      refine ih _ _ _ _ hm ?_ ?_ ?_ h
      · exact Allocator.well_formed_update cChunkSize _ _ _ hwf
      · exact hnd
      · exact Allocator.occupancy_update_same_use cChunkSize _ _ _ (fun _ => rfl) hocc
    | deallocate_handles cached mark young =>
      simp only [mature_only, Bool.and_eq_true, Bool.not_eq_true'] at hm
      obtain ⟨hy, hm⟩ := hm
      subst hy
      simp only [run_calls] at h
      exact ih _ _ _ _ hm
        (well_formed_deallocate_handles cChunkSize sizeofHandle marked_p t cached mark false hwf)
        (nodup_deallocate_handles cChunkSize sizeofHandle marked_p t cached mark false hwf)
        (occupancy_deallocate_mature cChunkSize sizeofHandle marked_p t cached mark hwf) h

/-- The table that owns no chunk satisfies the occupancy invariant. -/
theorem occupancy_no_chunk_table (cChunkSize : Nat) :
    no_chunk_table.allocator_.occupancy cChunkSize := by
  intro p h hs
  simp [no_chunk_table, Allocator.slot?] at hs

/-- A freshly constructed table satisfies the occupancy invariant: every
slot of its one chunk is free and on the free list. -/
theorem occupancy_new (cChunkSize : Nat) (hn : 0 < cChunkSize) :
    (new cChunkSize).allocator_.occupancy cChunkSize := by
  intro p h hs
  obtain ⟨hc, ho⟩ := Allocator.slot?_bounds cChunkSize _ (well_formed_new cChunkSize hn) p h hs
  have hc0 : p.chunk = 0 := by
    simp only [new, Allocator.new, List.length_singleton] at hc
    omega
  have hfree : h = Handle.free := by
    unfold Allocator.slot? at hs
    simp only [new, Allocator.new, hc0, List.get?_eq_getElem?, List.getElem?_cons_zero,
      Option.some_bind] at hs
    rw [List.getElem?_replicate, if_pos ho, Option.some.injEq] at hs
    exact hs.symm
  rw [hfree]
  constructor
  · intro _; rfl
  · intro _
    simp only [new, Allocator.new, List.mem_reverse, List.mem_range, hc0]
    omega

end Handles

end capi
end rubinius
